import Mathlib

/-!
# Verification of the slimarray repository

This file embeds the least-squares polynomial fitter of
`src/polyfit/polyfit.go` and (modelled from the specification, since the
compressed-array code itself is not among the provided sources) the SlimArray
compressed `uint32` array, and proves the specification claims about them.

Conventions of the shallow embedding:
* Go `float64` arithmetic is embedded as exact rational arithmetic over `ℚ`.
* Go slices `[]float64` become `List ℚ`; reads are `List.getD` with default 0.
* A Go `panic` becomes an `Option` result of `none`.
-/

namespace SlimVerify

/-- Fitting state, translated from the Go struct `Fitting` in
`src/polyfit/polyfit.go`: `xtx` caches the row-major `(Degree+1)×(Degree+1)`
matrix XᵀX and `xty` caches the vector XᵀY. -/
structure Fitting where
  N : Nat
  Degree : Nat
  xtx : List ℚ
  xty : List ℚ
deriving DecidableEq

/-- The vector `[1, x, x², …]` of length `m`: the `xpows` loop of
`Fitting.Add` in the Go source. -/
def xpows (m : Nat) (x : ℚ) : List ℚ :=
  (List.range m).map fun i => x ^ i

/-- Translated from the Go method `Fitting.Add`: adds the outer products of
`xpows` with itself into `xtx` (entry `i*m+j`, recovered here from the flat
index `k` as `k/m` and `k%m`), `xpows` scaled by `y` into `xty`, and
increments `N`. -/
def Fitting.Add (f : Fitting) (x y : ℚ) : Fitting :=
  let m := f.Degree + 1
  let xp := xpows m x
  { N := f.N + 1
    Degree := f.Degree
    xtx := (List.range (m * m)).map fun k =>
      f.xtx.getD k 0 + xp.getD (k / m) 0 * xp.getD (k % m) 0
    xty := (List.range m).map fun i => f.xty.getD i 0 + xp.getD i 0 * y }

/-- Translated from the Go method `Fitting.Merge`: the panic on a degree
mismatch becomes `none`; otherwise `xtx`, `xty` and `N` are added
element-wise into `f`. -/
def Fitting.Merge (f b : Fitting) : Option Fitting :=
  if f.Degree ≠ b.Degree then none
  else
    let m := f.Degree + 1
    some { N := f.N + b.N
           Degree := f.Degree
           xtx := (List.range (m * m)).map fun k => f.xtx.getD k 0 + b.xtx.getD k 0
           xty := (List.range m).map fun i => f.xty.getD i 0 + b.xty.getD i 0 }

/-- The zero-initialised fitter built at the top of the Go constructor
`NewFitting` before any point is added. -/
def emptyFitting (degree : Nat) : Fitting :=
  { N := 0
    Degree := degree
    xtx := List.replicate ((degree + 1) * (degree + 1)) 0
    xty := List.replicate (degree + 1) 0 }

/-- The point-adding loop of the Go constructor `NewFitting`. -/
def addPoints (f : Fitting) (ps : List (ℚ × ℚ)) : Fitting :=
  ps.foldl (fun g p => g.Add p.1 p.2) f

/-- Translated from the Go constructor `NewFitting`: it reads `ys[i]` for
every `i < len(xs)`, so it panics (`none`) exactly when `ys` is shorter than
`xs`; `List.zip` truncates at `xs.length`, matching the loop bound `n =
len(xs)`. -/
def NewFitting (xs ys : List ℚ) (degree : Nat) : Option Fitting :=
  if xs.length ≤ ys.length then
    some (addPoints (emptyFitting degree) (xs.zip ys))
  else
    none

/-! ### Helper lemmas about the list embedding -/

theorem getD_map_range {α : Type} (f : Nat → α) (d : α) {k n : Nat} (h : k < n) :
    ((List.range n).map f).getD k d = f k := by
  rw [List.getD_eq_getElem?_getD, List.getElem?_map, List.getElem?_range h]
  rfl

theorem getD_map_range_ge {α : Type} (f : Nat → α) (d : α) {k n : Nat} (h : n ≤ k) :
    ((List.range n).map f).getD k d = d := by
  rw [List.getD_eq_getElem?_getD, List.getElem?_map]
  rw [List.getElem?_eq_none (by simpa using h)]
  rfl

theorem xpows_getD (m : Nat) (x : ℚ) {i : Nat} (h : i < m) :
    (xpows m x).getD i 0 = x ^ i := by
  unfold xpows
  exact getD_map_range _ _ h

/-- Flat-index arithmetic: for `i, j < m` the flat index `i*m+j` decodes back
to `(i, j)`. -/
theorem flat_index_div {m i j : Nat} (hj : j < m) : (i * m + j) / m = i := by
  rw [Nat.add_comm, Nat.add_mul_div_right _ _ (by omega : 0 < m),
    Nat.div_eq_of_lt hj, Nat.zero_add]

theorem flat_index_mod {m i j : Nat} (hj : j < m) : (i * m + j) % m = j := by
  rw [Nat.add_comm, Nat.add_mul_mod_self_right, Nat.mod_eq_of_lt hj]

theorem flat_index_lt {m i j : Nat} (hi : i < m) (hj : j < m) :
    i * m + j < m * m := by
  calc i * m + j < i * m + m := by omega
    _ = (i + 1) * m := by ring
    _ ≤ m * m := Nat.mul_le_mul_right m hi

/-! ### C2: `Add` accumulates the outer products -/

/-- C2: for every fitter of degree `d` and point `(x, y)`, `Add x y` adds
`x^i · x^j` to entry `(i, j)` of the cached XᵀX, adds `x^i · y` to entry `i`
of XᵀY, increments `N` by exactly one, and leaves `Degree` unchanged. -/
theorem Add_accumulates (f : Fitting) (x y : ℚ) :
    (f.Add x y).N = f.N + 1 ∧
    (f.Add x y).Degree = f.Degree ∧
    (∀ i j, i < f.Degree + 1 → j < f.Degree + 1 →
      (f.Add x y).xtx.getD (i * (f.Degree + 1) + j) 0 =
        f.xtx.getD (i * (f.Degree + 1) + j) 0 + x ^ i * x ^ j) ∧
    (∀ i, i < f.Degree + 1 →
      (f.Add x y).xty.getD i 0 = f.xty.getD i 0 + x ^ i * y) := by
  refine ⟨rfl, rfl, ?_, ?_⟩
  · intro i j hi hj
    show ((List.range _).map _).getD _ 0 = _
    rw [getD_map_range _ _ (flat_index_lt hi hj)]
    rw [flat_index_div hj, flat_index_mod hj, xpows_getD _ _ hi, xpows_getD _ _ hj]
  · intro i hi
    show ((List.range _).map _).getD _ 0 = _
    rw [getD_map_range _ _ hi, xpows_getD _ _ hi]

/-! ### Sufficient statistics of a point set -/

/-- The contribution of a single point with abscissa `x` to flat entry `k`
of XᵀX for degree `d`. -/
def incXtx (d : Nat) (x : ℚ) (k : Nat) : ℚ :=
  x ^ (k / (d + 1)) * x ^ (k % (d + 1))

/-- Entry `k` of XᵀX accumulated over a whole point list. -/
def sumXtx (d : Nat) (ps : List (ℚ × ℚ)) (k : Nat) : ℚ :=
  (ps.map fun p => incXtx d p.1 k).sum

/-- Entry `i` of XᵀY accumulated over a whole point list. -/
def sumXty (d : Nat) (ps : List (ℚ × ℚ)) (i : Nat) : ℚ :=
  (ps.map fun p => p.1 ^ i * p.2).sum

theorem Add_degree (f : Fitting) (x y : ℚ) : (f.Add x y).Degree = f.Degree := rfl

theorem Add_xtx_getD (f : Fitting) (x y : ℚ) {k : Nat}
    (hk : k < (f.Degree + 1) * (f.Degree + 1)) :
    (f.Add x y).xtx.getD k 0 = f.xtx.getD k 0 + incXtx f.Degree x k := by
  have hdiv : k / (f.Degree + 1) < f.Degree + 1 :=
    Nat.div_lt_of_lt_mul (by omega)
  have hmod : k % (f.Degree + 1) < f.Degree + 1 := Nat.mod_lt _ (by omega)
  show ((List.range _).map _).getD _ 0 = _
  rw [getD_map_range _ _ hk, xpows_getD _ _ hdiv, xpows_getD _ _ hmod]
  rfl

theorem Add_xty_getD (f : Fitting) (x y : ℚ) {i : Nat} (hi : i < f.Degree + 1) :
    (f.Add x y).xty.getD i 0 = f.xty.getD i 0 + x ^ i * y := by
  show ((List.range _).map _).getD _ 0 = _
  rw [getD_map_range _ _ hi, xpows_getD _ _ hi]

theorem addPoints_degree (ps : List (ℚ × ℚ)) (f : Fitting) :
    (addPoints f ps).Degree = f.Degree := by
  induction ps generalizing f with
  | nil => rfl
  | cons p tl ih => exact (ih (f.Add p.1 p.2)).trans rfl

theorem addPoints_N (ps : List (ℚ × ℚ)) (f : Fitting) :
    (addPoints f ps).N = f.N + ps.length := by
  induction ps generalizing f with
  | nil => rfl
  | cons p tl ih =>
    show (addPoints (f.Add p.1 p.2) tl).N = _
    rw [ih]
    show f.N + 1 + tl.length = _
    simp [Nat.add_assoc, Nat.add_comm 1]

theorem addPoints_xtx (ps : List (ℚ × ℚ)) (f : Fitting) {k : Nat}
    (hk : k < (f.Degree + 1) * (f.Degree + 1)) :
    (addPoints f ps).xtx.getD k 0 = f.xtx.getD k 0 + sumXtx f.Degree ps k := by
  induction ps generalizing f with
  | nil => simp [addPoints, sumXtx]
  | cons p tl ih =>
    show (addPoints (f.Add p.1 p.2) tl).xtx.getD k 0 = _
    rw [ih (f.Add p.1 p.2) hk, Add_xtx_getD f p.1 p.2 hk]
    show f.xtx.getD k 0 + incXtx f.Degree p.1 k + sumXtx f.Degree tl k = _
    simp [sumXtx, add_assoc]

theorem addPoints_xty (ps : List (ℚ × ℚ)) (f : Fitting) {i : Nat}
    (hi : i < f.Degree + 1) :
    (addPoints f ps).xty.getD i 0 = f.xty.getD i 0 + sumXty f.Degree ps i := by
  induction ps generalizing f with
  | nil => simp [addPoints, sumXty]
  | cons p tl ih =>
    show (addPoints (f.Add p.1 p.2) tl).xty.getD i 0 = _
    rw [ih (f.Add p.1 p.2) hi, Add_xty_getD f p.1 p.2 hi]
    show f.xty.getD i 0 + p.1 ^ i * p.2 + sumXty f.Degree tl i = _
    simp [sumXty, add_assoc]

theorem emptyFitting_xtx_getD (d k : Nat) : (emptyFitting d).xtx.getD k 0 = 0 := by
  simp [emptyFitting, List.getD_replicate_default_eq, List.getD_eq_getElem?_getD]

theorem emptyFitting_xty_getD (d i : Nat) : (emptyFitting d).xty.getD i 0 = 0 := by
  simp [emptyFitting, List.getD_eq_getElem?_getD]

/-! ### C3: `Merge` adds the sufficient statistics -/

/-- C3: with equal degrees, `Merge` element-wise adds XᵀX, XᵀY and the point
counts, leaves `Degree` unchanged, and the merge of two fitters built from
point lists `A` and `B` carries exactly the sufficient statistics of the
fitter built from `A ++ B`. -/
theorem Merge_merges (f b : Fitting) (hd : f.Degree = b.Degree)
    (A B : List (ℚ × ℚ)) :
    (∃ g, f.Merge b = some g ∧ g.N = f.N + b.N ∧ g.Degree = f.Degree ∧
      (∀ k, k < (f.Degree + 1) * (f.Degree + 1) →
        g.xtx.getD k 0 = f.xtx.getD k 0 + b.xtx.getD k 0) ∧
      (∀ i, i < f.Degree + 1 →
        g.xty.getD i 0 = f.xty.getD i 0 + b.xty.getD i 0)) ∧
    (∀ g, (addPoints (emptyFitting f.Degree) A).Merge
            (addPoints (emptyFitting f.Degree) B) = some g →
      g.N = (addPoints (emptyFitting f.Degree) (A ++ B)).N ∧
      (∀ k, k < (f.Degree + 1) * (f.Degree + 1) →
        g.xtx.getD k 0 = (addPoints (emptyFitting f.Degree) (A ++ B)).xtx.getD k 0) ∧
      (∀ i, i < f.Degree + 1 →
        g.xty.getD i 0 = (addPoints (emptyFitting f.Degree) (A ++ B)).xty.getD i 0)) := by
  constructor
  · rw [Fitting.Merge, if_neg (by simp [hd])]
    refine ⟨_, rfl, rfl, rfl, ?_, ?_⟩
    · intro k hk
      exact getD_map_range _ _ hk
    · intro i hi
      exact getD_map_range _ _ hi
  · intro g hg
    set fa := addPoints (emptyFitting f.Degree) A with hfa
    set fb := addPoints (emptyFitting f.Degree) B with hfb
    have hda : fa.Degree = f.Degree := addPoints_degree _ _
    have hdb : fb.Degree = f.Degree := addPoints_degree _ _
    rw [Fitting.Merge, if_neg (by simp [hda, hdb])] at hg
    have hgN : g.N = fa.N + fb.N := by cases hg; rfl
    have hgx : g.xtx = (List.range ((fa.Degree + 1) * (fa.Degree + 1))).map
        fun k => fa.xtx.getD k 0 + fb.xtx.getD k 0 := by cases hg; rfl
    have hgy : g.xty = (List.range (fa.Degree + 1)).map
        fun i => fa.xty.getD i 0 + fb.xty.getD i 0 := by cases hg; rfl
    refine ⟨?_, ?_, ?_⟩
    · rw [hgN, addPoints_N, addPoints_N, addPoints_N]
      show (emptyFitting f.Degree).N + A.length + ((emptyFitting f.Degree).N + B.length) =
        (emptyFitting f.Degree).N + (A ++ B).length
      simp [emptyFitting]
    · intro k hk
      rw [hgx, getD_map_range _ _ (by rw [hda]; exact hk)]
      rw [hfa, hfb, addPoints_xtx _ _ (by simpa [emptyFitting] using hk),
        addPoints_xtx _ _ (by simpa [emptyFitting] using hk),
        addPoints_xtx _ _ (by simpa [emptyFitting] using hk)]
      simp only [emptyFitting_xtx_getD, zero_add]
      show sumXtx f.Degree A k + sumXtx f.Degree B k = sumXtx f.Degree (A ++ B) k
      simp [sumXtx]
    · intro i hi
      rw [hgy, getD_map_range _ _ (by rw [hda]; exact hi)]
      rw [hfa, hfb, addPoints_xty _ _ (by simpa [emptyFitting] using hi),
        addPoints_xty _ _ (by simpa [emptyFitting] using hi),
        addPoints_xty _ _ (by simpa [emptyFitting] using hi)]
      simp only [emptyFitting_xty_getD, zero_add]
      show sumXty f.Degree A i + sumXty f.Degree B i = sumXty f.Degree (A ++ B) i
      simp [sumXty]

/-- Witness for C3 at a concrete input. -/
theorem Merge_merges_witness :
    (∃ g, (emptyFitting 1).Merge ((emptyFitting 1).Add 1 2) = some g ∧
      g.N = (emptyFitting 1).N + ((emptyFitting 1).Add 1 2).N ∧
      g.Degree = (emptyFitting 1).Degree ∧
      (∀ k, k < 2 * 2 →
        g.xtx.getD k 0 = (emptyFitting 1).xtx.getD k 0 +
          ((emptyFitting 1).Add 1 2).xtx.getD k 0) ∧
      (∀ i, i < 2 →
        g.xty.getD i 0 = (emptyFitting 1).xty.getD i 0 +
          ((emptyFitting 1).Add 1 2).xty.getD i 0)) ∧
    (∀ g, (addPoints (emptyFitting 1) [(1, 2)]).Merge
            (addPoints (emptyFitting 1) [(3, 4)]) = some g →
      g.N = (addPoints (emptyFitting 1) ([(1, 2)] ++ [(3, 4)])).N ∧
      (∀ k, k < 2 * 2 →
        g.xtx.getD k 0 = (addPoints (emptyFitting 1) ([(1, 2)] ++ [(3, 4)])).xtx.getD k 0) ∧
      (∀ i, i < 2 →
        g.xty.getD i 0 = (addPoints (emptyFitting 1) ([(1, 2)] ++ [(3, 4)])).xty.getD i 0)) :=
  Merge_merges (emptyFitting 1) ((emptyFitting 1).Add 1 2) rfl [(1, 2)] [(3, 4)]

/-! ### C4: `Merge` fails exactly on a degree mismatch -/

/-- C4: `Merge` fails (the Go panic, embedded as `none`) if and only if the
two degrees differ.  The mismatch test precedes every state update in the
source, so a failing merge leaves the receiver untouched; in this pure
embedding no new state is produced at all. -/
theorem Merge_none_iff (f b : Fitting) :
    f.Merge b = none ↔ f.Degree ≠ b.Degree := by
  rw [Fitting.Merge]
  by_cases h : f.Degree ≠ b.Degree
  · simp [h]
  · simp [h]

/-! ### C10: `NewFitting` consumes one `y` per `x` -/

theorem zip_take_len {α β : Type} (xs : List α) (ys : List β) :
    xs.zip (ys.take xs.length) = xs.zip ys := by
  induction xs generalizing ys with
  | nil => rfl
  | cons x tl ih =>
    cases ys with
    | nil => rfl
    | cons y ytl => simp [List.zip_cons_cons, ih]

/-- C10: `NewFitting xs ys degree` adds the pairs `(xs[i], ys[i])` for
`i < len xs`, so it fails (index-out-of-range panic, embedded as `none`)
exactly when `ys` is shorter than `xs`; on success `N = len xs`, and entries
of `ys` beyond `len xs` are ignored. -/
theorem NewFitting_consumes (xs ys : List ℚ) (degree : Nat) :
    (NewFitting xs ys degree = none ↔ ys.length < xs.length) ∧
    (∀ f, NewFitting xs ys degree = some f →
      f.N = xs.length ∧ f.Degree = degree) ∧
    NewFitting xs ys degree = NewFitting xs (ys.take xs.length) degree := by
  refine ⟨?_, ?_, ?_⟩
  · rw [NewFitting]
    by_cases h : xs.length ≤ ys.length
    · rw [if_pos h]
      constructor
      · intro hc
        exact absurd hc (by simp)
      · intro hc
        exact absurd hc (by omega)
    · rw [if_neg h]
      constructor
      · intro _
        omega
      · intro _
        rfl
  · intro f hf
    rw [NewFitting] at hf
    by_cases h : xs.length ≤ ys.length
    · rw [if_pos h] at hf
      cases hf
      refine ⟨?_, addPoints_degree _ _⟩
      rw [addPoints_N]
      show 0 + (xs.zip ys).length = xs.length
      rw [List.length_zip]
      omega
    · rw [if_neg h] at hf
      exact absurd hf (by simp)
  · rw [NewFitting, NewFitting, zip_take_len]
    have : (ys.take xs.length).length = min xs.length ys.length := List.length_take _ _
    by_cases h : xs.length ≤ ys.length
    · rw [if_pos h, if_pos (by omega)]
    · rw [if_neg h, if_neg (by omega)]

/-- Witness for C10 at a concrete input. -/
theorem NewFitting_consumes_witness :
    (NewFitting [1, 2] [3] 1 = none ↔ ([3] : List ℚ).length < ([1, 2] : List ℚ).length) ∧
    (∀ f, NewFitting [1, 2] [3] 1 = some f →
      f.N = ([1, 2] : List ℚ).length ∧ f.Degree = 1) ∧
    NewFitting [1, 2] [3] 1 = NewFitting [1, 2] (([3] : List ℚ).take 2) 1 :=
  NewFitting_consumes [1, 2] [3] 1

/-! ### Solving, translated from the Go source -/

/-- Translated from the Go function `determinant2`. -/
def determinant2 (v : List ℚ) : ℚ :=
  let a := v.getD 0 0
  let b := v.getD 1 0
  let c := v.getD 2 0
  let d := v.getD 3 0
  a * d - b * c

/-- Translated from the Go function `determinant3`. -/
def determinant3 (v : List ℚ) : ℚ :=
  let a := v.getD 0 0
  let b := v.getD 1 0
  let c := v.getD 2 0
  let d := v.getD 3 0
  let e := v.getD 4 0
  let f := v.getD 5 0
  let g := v.getD 6 0
  let h := v.getD 7 0
  let i := v.getD 8 0
  a * e * i + b * f * g + c * d * h - c * e * g - b * d * i - a * f * h

/-- Translated from the Go function `solve1`. -/
def solve1 (v y : List ℚ) : List ℚ :=
  [y.getD 0 0 / v.getD 0 0]

/-- Translated from the Go function `solve2` (Cramer's rule on the 2×2
system). -/
def solve2 (v y : List ℚ) : List ℚ :=
  let a := v.getD 0 0
  let b := v.getD 1 0
  let c := v.getD 2 0
  let d := v.getD 3 0
  let dd := determinant2 v
  let dx1 := y.getD 0 0 * d - b * y.getD 1 0
  let dx2 := a * y.getD 1 0 - y.getD 0 0 * c
  [dx1 / dd, dx2 / dd]

/-- Translated from the Go function `solve3` (Cramer's rule on the 3×3
system). -/
def solve3 (v y : List ℚ) : List ℚ :=
  let a := v.getD 0 0
  let b := v.getD 1 0
  let c := v.getD 2 0
  let d := v.getD 3 0
  let e := v.getD 4 0
  let f := v.getD 5 0
  let g := v.getD 6 0
  let h := v.getD 7 0
  let i := v.getD 8 0
  let y0 := y.getD 0 0
  let y1 := y.getD 1 0
  let y2 := y.getD 2 0
  let dd := determinant3 v
  let dx1 := y0 * e * i + b * f * y2 + c * y1 * h - c * e * y2 - b * y1 * i - y0 * f * h
  let dx2 := a * y1 * i + y0 * f * g + c * d * y2 - c * y1 * g - y0 * d * i - a * f * y2
  let dx3 := a * e * y2 + b * y1 * g + y0 * d * h - y0 * e * g - b * d * y2 - a * y1 * h
  [dx1 / dd, dx2 / dd, dx3 / dd]

/-- Model of the external gonum `mat.Dense.Solve` used by the general branch
of `Fitting.Solve` (gonum is a collaborator, not part of this repository).
For a square system it is the exact adjugate solution
`((1/det A) • adj A) ⬝ b`, which solves `A x = b` whenever `det A ≠ 0`; for
a singular `A` it still returns a value, mirroring the Go code discarding
the solver's error. -/
def matSolve (n : Nat) (A : Matrix (Fin n) (Fin n) ℚ) (bv : Fin n → ℚ) :
    Fin n → ℚ :=
  ((1 / A.det) • A.adjugate).mulVec bv

/-- Translated from the Go method `Fitting.Solve`: the quick Cramer paths
for full-rank systems of size 1, 2, 3, and the general path that slices the
leading `N×N` subsystem (with the original row stride `m`) when
under-determined and zero-fills the trailing coefficients. -/
def Fitting.Solve (f : Fitting) : List ℚ :=
  let m := f.Degree + 1
  if m ≤ f.N ∧ m = 1 then solve1 f.xtx f.xty
  else if m ≤ f.N ∧ m = 2 then solve2 f.xtx f.xty
  else if m ≤ f.N ∧ m = 3 then solve3 f.xtx f.xty
  else
    let k := if f.N < m then f.N else m
    let beta := matSolve k (Matrix.of fun p q : Fin k => f.xtx.getD (p.1 * m + q.1) 0)
      (fun p => f.xty.getD p.1 0)
    (List.range m).map fun i => if h : i < k then beta ⟨i, h⟩ else 0

/-! ### C7: `Solve` is total -/

/-- C7: `Solve` never fails: it is a total function of the fitter state and
always returns `Degree + 1` coefficients, even when the cached system is
singular (divisions by a zero determinant and the modelled solver are total,
mirroring the Go code that ignores the solver's error). -/
theorem Solve_total (f : Fitting) : f.Solve.length = f.Degree + 1 := by
  rw [Fitting.Solve]
  simp only []
  split
  · next hc => simp [solve1]; omega
  · split
    · next hc => simp [solve2]; omega
    · split
      · next hc => simp [solve3]; omega
      · simp

/-! ### Branch selection in `Solve` -/

theorem Solve_deg0 (f : Fitting) (h0 : f.Degree = 0) (hn : f.Degree + 1 ≤ f.N) :
    f.Solve = solve1 f.xtx f.xty := by
  rw [Fitting.Solve]
  split
  · rfl
  · next hcond => exact absurd ⟨hn, by omega⟩ hcond

theorem Solve_deg1 (f : Fitting) (h1 : f.Degree = 1) (hn : f.Degree + 1 ≤ f.N) :
    f.Solve = solve2 f.xtx f.xty := by
  rw [Fitting.Solve]
  split
  · next hcond => exact absurd hcond.2 (by omega)
  · split
    · rfl
    · next hcond => exact absurd ⟨hn, by omega⟩ hcond

theorem Solve_deg2 (f : Fitting) (h2 : f.Degree = 2) (hn : f.Degree + 1 ≤ f.N) :
    f.Solve = solve3 f.xtx f.xty := by
  rw [Fitting.Solve]
  split
  · next hcond => exact absurd hcond.2 (by omega)
  · split
    · next hcond => exact absurd hcond.2 (by omega)
    · split
      · rfl
      · next hcond => exact absurd ⟨hn, by omega⟩ hcond

theorem Solve_general_eq (f : Fitting) (hn : f.N < f.Degree + 1) :
    f.Solve = (List.range (f.Degree + 1)).map fun i =>
      if h : i < f.N then
        matSolve f.N
          (Matrix.of fun p q : Fin f.N => f.xtx.getD (p.1 * (f.Degree + 1) + q.1) 0)
          (fun p => f.xty.getD p.1 0) ⟨i, h⟩
      else 0 := by
  rw [Fitting.Solve]
  split
  · next hcond => exact absurd hcond.1 (by omega)
  · split
    · next hcond => exact absurd hcond.1 (by omega)
    · split
      · next hcond => exact absurd hcond.1 (by omega)
      · simp only [if_pos hn]

/-- The modelled linear solver returns the exact solution whenever the
matrix is nonsingular. -/
theorem matSolve_solves {n : Nat} (A : Matrix (Fin n) (Fin n) ℚ) (bv : Fin n → ℚ)
    (hdet : A.det ≠ 0) : A.mulVec (matSolve n A bv) = bv := by
  unfold matSolve
  rw [Matrix.mulVec_mulVec, Matrix.mul_smul, Matrix.mul_adjugate, smul_smul,
    one_div, inv_mul_cancel₀ hdet, one_smul, Matrix.one_mulVec]

/-- The determinant of the 1×1, 2×2 or 3×3 cached system, matching the Go
closed forms. -/
def cramerDet (f : Fitting) : ℚ :=
  if f.Degree = 0 then f.xtx.getD 0 0
  else if f.Degree = 1 then determinant2 f.xtx
  else determinant3 f.xtx

/-! ### C5: the quick path is Cramer's rule and solves the normal equations -/

/-- C5: for degree `d ≤ 2` and `N ≥ d+1`, `Solve` returns the closed-form
Cramer's-rule solution of the cached 1×1, 2×2 or 3×3 normal equations (for
`d = 0` this is `XᵀY[0]/XᵀX[0][0]`, the mean of the added `y` values), and
whenever the system is nonsingular the returned coefficients satisfy
`XᵀX·β = XᵀY` exactly. -/
theorem Solve_cramer (f : Fitting) (hd : f.Degree ≤ 2) (hn : f.Degree + 1 ≤ f.N) :
    (f.Degree = 0 → f.Solve = solve1 f.xtx f.xty) ∧
    (f.Degree = 1 → f.Solve = solve2 f.xtx f.xty) ∧
    (f.Degree = 2 → f.Solve = solve3 f.xtx f.xty) ∧
    (cramerDet f ≠ 0 → ∀ i, i < f.Degree + 1 →
      ((Finset.range (f.Degree + 1)).sum fun j =>
        f.xtx.getD (i * (f.Degree + 1) + j) 0 * f.Solve.getD j 0) =
      f.xty.getD i 0) := by
  have hcase : f.Degree = 0 ∨ f.Degree = 1 ∨ f.Degree = 2 := by omega
  rcases hcase with h | h | h
  · refine ⟨fun _ => Solve_deg0 f h hn, fun hc => absurd hc (by omega),
      fun hc => absurd hc (by omega), ?_⟩
    intro hdet i hi
    rw [cramerDet, if_pos h] at hdet
    have hi0 : i = 0 := by omega
    subst hi0
    rw [h, Solve_deg0 f h hn]
    simp only [Finset.sum_range_one, solve1, Nat.zero_mul, Nat.zero_add,
      List.getD_cons_zero]
    simp only [List.getD_eq_getElem?_getD] at hdet ⊢
    field_simp
  · refine ⟨fun hc => absurd hc (by omega), fun _ => Solve_deg1 f h hn,
      fun hc => absurd hc (by omega), ?_⟩
    intro hdet i hi
    rw [cramerDet, if_neg (by omega), if_pos h] at hdet
    rw [h, Solve_deg1 f h hn]
    simp only [determinant2, List.getD_eq_getElem?_getD] at hdet
    have hi01 : i = 0 ∨ i = 1 := by omega
    rcases hi01 with hi0 | hi0 <;> subst hi0 <;>
      simp only [Finset.sum_range_succ, Finset.sum_range_one, solve2, determinant2,
        List.getD_cons_zero, List.getD_cons_succ] <;>
      norm_num [List.getD_eq_getElem?_getD] <;> field_simp <;> ring
  · refine ⟨fun hc => absurd hc (by omega), fun hc => absurd hc (by omega),
      fun _ => Solve_deg2 f h hn, ?_⟩
    intro hdet i hi
    rw [cramerDet, if_neg (by omega), if_neg (by omega)] at hdet
    rw [h, Solve_deg2 f h hn]
    simp only [determinant3, List.getD_eq_getElem?_getD] at hdet
    have hi012 : i = 0 ∨ i = 1 ∨ i = 2 := by omega
    rcases hi012 with hi0 | hi0 | hi0 <;> subst hi0 <;>
      simp only [Finset.sum_range_succ, Finset.sum_range_one, solve3, determinant3,
        List.getD_cons_zero, List.getD_cons_succ] <;>
      norm_num [List.getD_eq_getElem?_getD] <;> field_simp <;> ring

/-- Witness for C5 at a concrete input. -/
theorem Solve_cramer_witness :
    ((addPoints (emptyFitting 1) [(0, 0), (1, 1)]).Degree = 0 →
      (addPoints (emptyFitting 1) [(0, 0), (1, 1)]).Solve =
        solve1 (addPoints (emptyFitting 1) [(0, 0), (1, 1)]).xtx
          (addPoints (emptyFitting 1) [(0, 0), (1, 1)]).xty) ∧
    ((addPoints (emptyFitting 1) [(0, 0), (1, 1)]).Degree = 1 →
      (addPoints (emptyFitting 1) [(0, 0), (1, 1)]).Solve =
        solve2 (addPoints (emptyFitting 1) [(0, 0), (1, 1)]).xtx
          (addPoints (emptyFitting 1) [(0, 0), (1, 1)]).xty) ∧
    ((addPoints (emptyFitting 1) [(0, 0), (1, 1)]).Degree = 2 →
      (addPoints (emptyFitting 1) [(0, 0), (1, 1)]).Solve =
        solve3 (addPoints (emptyFitting 1) [(0, 0), (1, 1)]).xtx
          (addPoints (emptyFitting 1) [(0, 0), (1, 1)]).xty) ∧
    (cramerDet (addPoints (emptyFitting 1) [(0, 0), (1, 1)]) ≠ 0 →
      ∀ i, i < (addPoints (emptyFitting 1) [(0, 0), (1, 1)]).Degree + 1 →
        ((Finset.range ((addPoints (emptyFitting 1) [(0, 0), (1, 1)]).Degree + 1)).sum
          fun j =>
            (addPoints (emptyFitting 1) [(0, 0), (1, 1)]).xtx.getD
              (i * ((addPoints (emptyFitting 1) [(0, 0), (1, 1)]).Degree + 1) + j) 0 *
            (addPoints (emptyFitting 1) [(0, 0), (1, 1)]).Solve.getD j 0) =
        (addPoints (emptyFitting 1) [(0, 0), (1, 1)]).xty.getD i 0) :=
  Solve_cramer (addPoints (emptyFitting 1) [(0, 0), (1, 1)])
    (by decide) (by decide)

/-! ### C6: the under-determined path -/

/-- C6: when `N < degree + 1`, `Solve` returns `degree + 1` coefficients:
the leading `N` come from the modelled linear solver applied to the leading
`N×N` subsystem of the cached normal equations (entries `xtx[p·m+q]` with
the original row stride `m = degree + 1`), the trailing ones are exactly
zero, and when that subsystem is nonsingular the leading coefficients solve
it exactly. -/
theorem Solve_underdet (f : Fitting) (hn : f.N < f.Degree + 1) :
    f.Solve.length = f.Degree + 1 ∧
    (∀ i, f.N ≤ i → i < f.Degree + 1 → f.Solve.getD i 0 = 0) ∧
    (∀ i, (hi : i < f.N) → f.Solve.getD i 0 =
      matSolve f.N
        (Matrix.of fun p q : Fin f.N => f.xtx.getD (p.1 * (f.Degree + 1) + q.1) 0)
        (fun p => f.xty.getD p.1 0) ⟨i, hi⟩) ∧
    ((Matrix.of fun p q : Fin f.N =>
        f.xtx.getD (p.1 * (f.Degree + 1) + q.1) 0).det ≠ 0 →
      ∀ p : Fin f.N,
        (Finset.univ.sum fun q : Fin f.N =>
          f.xtx.getD (p.1 * (f.Degree + 1) + q.1) 0 * f.Solve.getD q.1 0) =
        f.xty.getD p.1 0) := by
  have hs := Solve_general_eq f hn
  refine ⟨?_, ?_, ?_, ?_⟩
  · rw [hs]
    simp
  · intro i hNi him
    rw [hs, getD_map_range _ _ him, dif_neg (by omega)]
  · intro i hi
    rw [hs, getD_map_range _ _ (by omega)]
    rw [dif_pos hi]
  · intro hdet p
    set A : Matrix (Fin f.N) (Fin f.N) ℚ :=
      Matrix.of fun p q : Fin f.N => f.xtx.getD (p.1 * (f.Degree + 1) + q.1) 0 with hA
    have key : A.mulVec (matSolve f.N A (fun p => f.xty.getD p.1 0)) =
        fun p => f.xty.getD p.1 0 := matSolve_solves A _ hdet
    have hval : ∀ q : Fin f.N, f.Solve.getD q.1 0 =
        matSolve f.N A (fun p => f.xty.getD p.1 0) q := by
      intro q
      rw [hs, getD_map_range _ _ (by omega), dif_pos q.2]
    calc (Finset.univ.sum fun q : Fin f.N =>
            f.xtx.getD (p.1 * (f.Degree + 1) + q.1) 0 * f.Solve.getD q.1 0)
        = (Finset.univ.sum fun q : Fin f.N =>
            A p q * matSolve f.N A (fun p => f.xty.getD p.1 0) q) := by
          refine Finset.sum_congr rfl fun q _ => ?_
          rw [hval q]
          rfl
      _ = A.mulVec (matSolve f.N A (fun p => f.xty.getD p.1 0)) p := by
          simp [Matrix.mulVec, Matrix.dotProduct]
      _ = f.xty.getD p.1 0 := by rw [key]

/-- Witness for C6 at a concrete input. -/
theorem Solve_underdet_witness :
    ((emptyFitting 1).Add 0 5).Solve.length = ((emptyFitting 1).Add 0 5).Degree + 1 ∧
    (∀ i, ((emptyFitting 1).Add 0 5).N ≤ i → i < ((emptyFitting 1).Add 0 5).Degree + 1 →
      ((emptyFitting 1).Add 0 5).Solve.getD i 0 = 0) ∧
    (∀ i, (hi : i < ((emptyFitting 1).Add 0 5).N) →
      ((emptyFitting 1).Add 0 5).Solve.getD i 0 =
      matSolve ((emptyFitting 1).Add 0 5).N
        (Matrix.of fun p q : Fin ((emptyFitting 1).Add 0 5).N =>
          ((emptyFitting 1).Add 0 5).xtx.getD
            (p.1 * (((emptyFitting 1).Add 0 5).Degree + 1) + q.1) 0)
        (fun p => ((emptyFitting 1).Add 0 5).xty.getD p.1 0) ⟨i, hi⟩) ∧
    ((Matrix.of fun p q : Fin ((emptyFitting 1).Add 0 5).N =>
        ((emptyFitting 1).Add 0 5).xtx.getD
          (p.1 * (((emptyFitting 1).Add 0 5).Degree + 1) + q.1) 0).det ≠ 0 →
      ∀ p : Fin ((emptyFitting 1).Add 0 5).N,
        (Finset.univ.sum fun q : Fin ((emptyFitting 1).Add 0 5).N =>
          ((emptyFitting 1).Add 0 5).xtx.getD
            (p.1 * (((emptyFitting 1).Add 0 5).Degree + 1) + q.1) 0 *
          ((emptyFitting 1).Add 0 5).Solve.getD q.1 0) =
        ((emptyFitting 1).Add 0 5).xty.getD p.1 0) :=
  Solve_underdet ((emptyFitting 1).Add 0 5) (by decide)

/-! ### C9: the degree-1 fit of `[0, 15, 33, 50]` -/

/-- C9 counterexample: the degree-1 least-squares fit of the points
`(0,0), (1,15), (2,33), (3,50)` is not `y = 16x`: `Solve` does not return
coefficients `[0, 16]`. -/
theorem Solve_s2_not_16x :
    (NewFitting [0, 1, 2, 3] [0, 15, 33, 50] 1).map Fitting.Solve ≠ some [0, 16] := by
  norm_num [NewFitting, addPoints, emptyFitting, Fitting.Add, xpows,
    Fitting.Solve, solve1, solve2, solve3, determinant2, List.range_succ]

/-- C9 amended: the degree-1 least-squares fit of `(0,0), (1,15), (2,33),
(3,50)` is `y = 16.8x − 0.7`: `Solve` returns `β₀ = −7/10` and `β₁ = 84/5`
(exact rational arithmetic; the Go float64 result is the correctly rounded
value of these quotients). -/
theorem Solve_s2_exact :
    (NewFitting [0, 1, 2, 3] [0, 15, 33, 50] 1).map Fitting.Solve =
      some [-7 / 10, 84 / 5] := by
  norm_num [NewFitting, addPoints, emptyFitting, Fitting.Add, xpows,
    Fitting.Solve, solve1, solve2, solve3, determinant2, List.range_succ]

/-! ### A heap model of slice aliasing, for the `Copy` independence claim

`Fitting.Copy` in the Go source allocates fresh backing arrays and copies the
receiver's data into them.  To state that mutating the copy is never
observable in the original (and vice versa) we model the Go heap explicitly:
slices live in a store and fitter structs hold indices into it. -/

/-- A fitter struct as laid out on the heap: scalar fields plus references
(store indices) to the two backing arrays. -/
structure FitRec where
  N : Nat
  Degree : Nat
  xtxRef : Nat
  xtyRef : Nat
deriving DecidableEq

/-- The all-zero struct used as the out-of-range default. -/
def noFit : FitRec := ⟨0, 0, 0, 0⟩

/-- A heap: a store of float slices and a store of fitter structs. -/
structure Heap where
  slices : List (List ℚ)
  fits : List FitRec
deriving DecidableEq

/-- Read the fitter value a reference points at. -/
def Heap.readFit (h : Heap) (p : Nat) : Fitting :=
  let r := h.fits.getD p noFit
  { N := r.N
    Degree := r.Degree
    xtx := h.slices.getD r.xtxRef []
    xty := h.slices.getD r.xtyRef [] }

/-- Write a fitter value back through a reference: scalars to the struct,
arrays over the referenced slices, in place. -/
def Heap.writeFit (h : Heap) (p : Nat) (ft : Fitting) : Heap :=
  let r := h.fits.getD p noFit
  { slices := (h.slices.set r.xtxRef ft.xtx).set r.xtyRef ft.xty
    fits := h.fits.set p ⟨ft.N, ft.Degree, r.xtxRef, r.xtyRef⟩ }

/-- The Go method `Fitting.Add` applied through a reference, mutating in
place. -/
def Heap.addAt (h : Heap) (p : Nat) (x y : ℚ) : Heap :=
  h.writeFit p ((h.readFit p).Add x y)

/-- The Go method `Fitting.Merge` applied through references: reads both
fitters but writes only the receiver `p`. -/
def Heap.mergeAt (h : Heap) (p q : Nat) : Option Heap :=
  ((h.readFit p).Merge (h.readFit q)).map (h.writeFit p)

/-- Translated from the Go method `Fitting.Copy`: allocate two fresh backing
arrays holding copies of the receiver's data and a fresh struct with the
same `N` and `Degree`; return the new heap and the new reference. -/
def Heap.copyAt (h : Heap) (p : Nat) : Heap × Nat :=
  let ft := h.readFit p
  (⟨h.slices ++ [ft.xtx, ft.xty],
    h.fits ++ [⟨ft.N, ft.Degree, h.slices.length, h.slices.length + 1⟩]⟩,
   h.fits.length)

theorem getD_set_ne {α : Type} (l : List α) (i j : Nat) (a : α) (d : α)
    (hij : i ≠ j) : (l.set i a).getD j d = l.getD j d := by
  rw [List.getD_eq_getElem?_getD, List.getD_eq_getElem?_getD,
    List.getElem?_set_ne hij]

theorem getD_append_left {α : Type} (l l2 : List α) (j : Nat) (d : α)
    (hj : j < l.length) : (l ++ l2).getD j d = l.getD j d := by
  rw [List.getD_eq_getElem?_getD, List.getD_eq_getElem?_getD,
    List.getElem?_append, if_pos hj]

theorem getD_append_add {α : Type} (l l2 : List α) (k : Nat) (d : α) :
    (l ++ l2).getD (l.length + k) d = l2.getD k d := by
  rw [List.getD_eq_getElem?_getD, List.getD_eq_getElem?_getD,
    List.getElem?_append_right (by omega : l.length ≤ l.length + k)]
  have hk : l.length + k - l.length = k := by omega
  rw [hk]

/-- Reading through `p` after writing through `w` is unchanged when the two
structs are distinct and their backing arrays are disjoint. -/
theorem readFit_writeFit_ne (h : Heap) (w p : Nat) (ft : Fitting)
    (hpw : w ≠ p)
    (hxx : (h.fits.getD w noFit).xtxRef ≠ (h.fits.getD p noFit).xtxRef)
    (hxy : (h.fits.getD w noFit).xtxRef ≠ (h.fits.getD p noFit).xtyRef)
    (hyx : (h.fits.getD w noFit).xtyRef ≠ (h.fits.getD p noFit).xtxRef)
    (hyy : (h.fits.getD w noFit).xtyRef ≠ (h.fits.getD p noFit).xtyRef) :
    (h.writeFit w ft).readFit p = h.readFit p := by
  unfold Heap.writeFit Heap.readFit
  simp only [getD_set_ne _ _ _ _ _ hpw]
  rw [getD_set_ne _ _ _ _ _ hyx, getD_set_ne _ _ _ _ _ hxx,
    getD_set_ne _ _ _ _ _ hyy, getD_set_ne _ _ _ _ _ hxy]

/-! ### C8: `Copy` is a deep, independent clone -/

/-- C8: `Copy` allocates a fresh struct and fresh backing arrays carrying
the same `N`, `Degree`, XᵀX and XᵀY as the original, leaves the original
untouched, and the two fitters are independent afterwards: `Add` or `Merge`
through either reference never changes what is read through the other. -/
theorem Copy_independent (h : Heap) (p : Nat)
    (hp : p < h.fits.length)
    (hx : (h.fits.getD p noFit).xtxRef < h.slices.length)
    (hy : (h.fits.getD p noFit).xtyRef < h.slices.length) :
    ((h.copyAt p).1.readFit (h.copyAt p).2 = h.readFit p) ∧
    ((h.copyAt p).1.readFit p = h.readFit p) ∧
    (∀ x y, ((h.copyAt p).1.addAt (h.copyAt p).2 x y).readFit p = h.readFit p) ∧
    (∀ x y, ((h.copyAt p).1.addAt p x y).readFit (h.copyAt p).2 =
      (h.copyAt p).1.readFit (h.copyAt p).2) ∧
    (∀ r h3, (h.copyAt p).1.mergeAt (h.copyAt p).2 r = some h3 →
      h3.readFit p = h.readFit p) ∧
    (∀ r h3, (h.copyAt p).1.mergeAt p r = some h3 →
      h3.readFit (h.copyAt p).2 = (h.copyAt p).1.readFit (h.copyAt p).2) := by
  have hq : (h.copyAt p).2 = h.fits.length := rfl
  set h2 := (h.copyAt p).1 with hh2
  have hfits2 : h2.fits = h.fits ++
      [⟨(h.readFit p).N, (h.readFit p).Degree, h.slices.length, h.slices.length + 1⟩] := rfl
  have hslices2 : h2.slices = h.slices ++ [(h.readFit p).xtx, (h.readFit p).xty] := rfl
  have hrec_q : h2.fits.getD (h.copyAt p).2 noFit =
      ⟨(h.readFit p).N, (h.readFit p).Degree, h.slices.length, h.slices.length + 1⟩ := by
    rw [hfits2, hq]
    have : h.fits.length = h.fits.length + 0 := rfl
    rw [this, getD_append_add]
    rfl
  have hrec_p : h2.fits.getD p noFit = h.fits.getD p noFit := by
    rw [hfits2, getD_append_left _ _ _ _ hp]
  have hread_p : h2.readFit p = h.readFit p := by
    unfold Heap.readFit
    simp only [hrec_p]
    rw [hslices2, getD_append_left _ _ _ _ hx, getD_append_left _ _ _ _ hy]
  have hread_q : h2.readFit (h.copyAt p).2 = h.readFit p := by
    unfold Heap.readFit
    simp only [hrec_q]
    show ({ N := (h.readFit p).N, Degree := (h.readFit p).Degree,
            xtx := h2.slices.getD h.slices.length [],
            xty := h2.slices.getD (h.slices.length + 1) [] } : Fitting) = _
    rw [hslices2]
    have e0 : h.slices.length = h.slices.length + 0 := rfl
    have hgx : (h.slices ++ [(h.readFit p).xtx, (h.readFit p).xty]).getD
        (h.slices.length + 0) [] = (h.readFit p).xtx := by
      rw [getD_append_add]
      rfl
    have hgy : (h.slices ++ [(h.readFit p).xtx, (h.readFit p).xty]).getD
        (h.slices.length + 1) [] = (h.readFit p).xty := by
      rw [getD_append_add]
      rfl
    rw [e0, hgx, hgy]
    rfl
  have hqx : (h2.fits.getD (h.copyAt p).2 noFit).xtxRef = h.slices.length := by
    rw [hrec_q]
  have hqy : (h2.fits.getD (h.copyAt p).2 noFit).xtyRef = h.slices.length + 1 := by
    rw [hrec_q]
  have hdisj : ∀ ft : Fitting, (h2.writeFit (h.copyAt p).2 ft).readFit p = h2.readFit p := by
    intro ft
    refine readFit_writeFit_ne h2 _ p ft (by rw [hq]; omega) ?_ ?_ ?_ ?_
    · rw [hqx, hrec_p]; omega
    · rw [hqx, hrec_p]; omega
    · rw [hqy, hrec_p]; omega
    · rw [hqy, hrec_p]; omega
  have hdisj2 : ∀ ft : Fitting,
      (h2.writeFit p ft).readFit (h.copyAt p).2 = h2.readFit (h.copyAt p).2 := by
    intro ft
    refine readFit_writeFit_ne h2 p _ ft (by rw [hq]; omega) ?_ ?_ ?_ ?_
    · rw [hqx, hrec_p]; omega
    · rw [hqy, hrec_p]; omega
    · rw [hqx, hrec_p]; omega
    · rw [hqy, hrec_p]; omega
  refine ⟨hread_q, hread_p, ?_, ?_, ?_, ?_⟩
  · intro x y
    rw [Heap.addAt, hdisj, hread_p]
  · intro x y
    rw [Heap.addAt, hdisj2]
  · intro r h3 hm
    rw [Heap.mergeAt] at hm
    cases hopt : ((h2.readFit (h.copyAt p).2).Merge (h2.readFit r)) with
    | none => rw [hopt] at hm; exact absurd hm (by simp)
    | some g =>
      rw [hopt] at hm
      simp only [Option.map_some', Option.some.injEq] at hm
      rw [← hm, hdisj, hread_p]
  · intro r h3 hm
    rw [Heap.mergeAt] at hm
    cases hopt : ((h2.readFit p).Merge (h2.readFit r)) with
    | none => rw [hopt] at hm; exact absurd hm (by simp)
    | some g =>
      rw [hopt] at hm
      simp only [Option.map_some', Option.some.injEq] at hm
      rw [← hm, hdisj2]

/-- Witness for C8 at a concrete heap. -/
theorem Copy_independent_witness :
    (((⟨[[1], [2]], [⟨1, 0, 0, 1⟩]⟩ : Heap).copyAt 0).1.readFit
        ((⟨[[1], [2]], [⟨1, 0, 0, 1⟩]⟩ : Heap).copyAt 0).2 =
      (⟨[[1], [2]], [⟨1, 0, 0, 1⟩]⟩ : Heap).readFit 0) ∧
    (((⟨[[1], [2]], [⟨1, 0, 0, 1⟩]⟩ : Heap).copyAt 0).1.readFit 0 =
      (⟨[[1], [2]], [⟨1, 0, 0, 1⟩]⟩ : Heap).readFit 0) ∧
    (∀ x y, (((⟨[[1], [2]], [⟨1, 0, 0, 1⟩]⟩ : Heap).copyAt 0).1.addAt
        ((⟨[[1], [2]], [⟨1, 0, 0, 1⟩]⟩ : Heap).copyAt 0).2 x y).readFit 0 =
      (⟨[[1], [2]], [⟨1, 0, 0, 1⟩]⟩ : Heap).readFit 0) ∧
    (∀ x y, (((⟨[[1], [2]], [⟨1, 0, 0, 1⟩]⟩ : Heap).copyAt 0).1.addAt 0 x y).readFit
        ((⟨[[1], [2]], [⟨1, 0, 0, 1⟩]⟩ : Heap).copyAt 0).2 =
      ((⟨[[1], [2]], [⟨1, 0, 0, 1⟩]⟩ : Heap).copyAt 0).1.readFit
        ((⟨[[1], [2]], [⟨1, 0, 0, 1⟩]⟩ : Heap).copyAt 0).2) ∧
    (∀ r h3, ((⟨[[1], [2]], [⟨1, 0, 0, 1⟩]⟩ : Heap).copyAt 0).1.mergeAt
        ((⟨[[1], [2]], [⟨1, 0, 0, 1⟩]⟩ : Heap).copyAt 0).2 r = some h3 →
      h3.readFit 0 = (⟨[[1], [2]], [⟨1, 0, 0, 1⟩]⟩ : Heap).readFit 0) ∧
    (∀ r h3, ((⟨[[1], [2]], [⟨1, 0, 0, 1⟩]⟩ : Heap).copyAt 0).1.mergeAt 0 r = some h3 →
      h3.readFit ((⟨[[1], [2]], [⟨1, 0, 0, 1⟩]⟩ : Heap).copyAt 0).2 =
      ((⟨[[1], [2]], [⟨1, 0, 0, 1⟩]⟩ : Heap).copyAt 0).1.readFit
        ((⟨[[1], [2]], [⟨1, 0, 0, 1⟩]⟩ : Heap).copyAt 0).2) :=
  Copy_independent ⟨[[1], [2]], [⟨1, 0, 0, 1⟩]⟩ 0 (by decide) (by decide) (by decide)

/-- Witness for C2 at a concrete input. -/
theorem Add_accumulates_witness :
    ((emptyFitting 1).Add 2 3).N = 1 ∧
    ((emptyFitting 1).Add 2 3).Degree = 1 ∧
    (∀ i j, i < 2 → j < 2 →
      ((emptyFitting 1).Add 2 3).xtx.getD (i * 2 + j) 0 =
        (emptyFitting 1).xtx.getD (i * 2 + j) 0 + 2 ^ i * 2 ^ j) ∧
    (∀ i, i < 2 →
      ((emptyFitting 1).Add 2 3).xty.getD i 0 = (emptyFitting 1).xty.getD i 0 + 2 ^ i * 3) :=
  Add_accumulates (emptyFitting 1) 2 3

/-! ## SlimArray, modelled from the specification

The compressed-array implementation itself is not among the provided
sources (only the polyfit package is); the definitions below are modelled
from the specification: §3 (data model), §4.2 (span planner), §4.3
(encoder), §4.4 (decoder), §7 (ResidualOverflow fallback). -/

/-- Modelled from the spec (§4.4, §9): Horner evaluation
`((c·x + b)·x + a)` of the span polynomial `(a, b, c)`. -/
def polyEval (p : ℚ × ℚ × ℚ) (x : ℚ) : ℚ :=
  (p.2.2 * x + p.2.1) * x + p.1

/-- Modelled from the spec (§4.4 step 5): rounding as `⌊v + 0.5⌋`. -/
def roundHalf (v : ℚ) : ℤ :=
  Int.floor (v + 1 / 2)

/-- Minimum of a list of integers (0 for the empty list). -/
def minInt : List ℤ → ℤ
  | [] => 0
  | r :: tl => tl.foldl min r

/-- Maximum of a list of naturals, at least 0. -/
def maxNat (l : List Nat) : Nat :=
  l.foldl max 0

theorem foldl_min_le_init (l : List ℤ) (a : ℤ) : l.foldl min a ≤ a := by
  induction l generalizing a with
  | nil => simp
  | cons x tl ih => exact le_trans (ih (min a x)) (min_le_left a x)

theorem foldl_min_le_mem (l : List ℤ) (a : ℤ) : ∀ r ∈ l, l.foldl min a ≤ r := by
  induction l generalizing a with
  | nil => intro r hr; cases hr
  | cons x tl ih =>
    intro r hr
    rcases List.mem_cons.mp hr with hrx | hrtl
    · subst hrx
      exact le_trans (foldl_min_le_init tl (min a r)) (min_le_right a r)
    · exact ih (min a x) r hrtl

theorem minInt_le (l : List ℤ) : ∀ r ∈ l, minInt l ≤ r := by
  cases l with
  | nil => intro r hr; cases hr
  | cons x tl =>
    intro r hr
    rcases List.mem_cons.mp hr with hrx | hrtl
    · subst hrx
      exact foldl_min_le_init tl r
    · exact foldl_min_le_mem tl x r hrtl

theorem le_foldl_max (l : List Nat) (a : Nat) : a ≤ l.foldl max a := by
  induction l generalizing a with
  | nil => simp
  | cons x tl ih => exact le_trans (le_max_left a x) (ih (max a x))

theorem mem_le_foldl_max (l : List Nat) (a : Nat) : ∀ r ∈ l, r ≤ l.foldl max a := by
  induction l generalizing a with
  | nil => intro r hr; cases hr
  | cons x tl ih =>
    intro r hr
    rcases List.mem_cons.mp hr with hrx | hrtl
    · subst hrx
      exact le_trans (le_max_right a r) (le_foldl_max tl (max a r))
    · exact ih (max a x) r hrtl

theorem le_maxNat (l : List Nat) : ∀ r ∈ l, r ≤ maxNat l :=
  mem_le_foldl_max l 0

/-- Modelled from the spec (§4.1, §4.2 edge case): the span polynomial is
the least-squares fit of the span values at abscissas `0, 1, 2, …` with
degree `min(2, L−1)`, padded to three coefficients. -/
def fitSpan (vals : List Nat) : ℚ × ℚ × ℚ :=
  let d := min 2 (vals.length - 1)
  let f := addPoints (emptyFitting d)
    ((List.range vals.length).map fun k : Nat => ((k : ℚ), (vals.getD k 0 : ℚ)))
  let beta := f.Solve
  (beta.getD 0 0, beta.getD 1 0, beta.getD 2 0)

/-- Modelled from the spec (§4.3 step 2): the raw integer residuals
`nums[k] − round(poly(k))`. -/
def rawResiduals (vals : List Nat) (p : ℚ × ℚ × ℚ) : List ℤ :=
  (List.range vals.length).map fun k : Nat =>
    (vals.getD k 0 : ℤ) - roundHalf (polyEval p (k : ℚ))

/-- The residuals shifted by their minimum δ so they are non-negative
(§4.3 step 2). -/
def shiftedResiduals (vals : List Nat) : List Nat :=
  let rs := rawResiduals vals (fitSpan vals)
  rs.map fun r => (r - minInt rs).toNat

/-- The allowed residual widths (§3). -/
def widthsList : List Nat := [0, 1, 2, 4, 8, 16, 32]

/-- Smallest allowed width such that `mx < 2^w`, if any (§4.3 step 3). -/
def pickWidth (mx : Nat) : Option Nat :=
  widthsList.find? fun w => mx < 2 ^ w

/-- One encoded span: the (shifted) polynomial, the residual width, and the
non-negative residuals. -/
structure SpanEnc where
  poly : ℚ × ℚ × ℚ
  width : Nat
  residuals : List Nat

/-- Modelled from the spec (§4.3 steps 2–3 and §7 `ResidualOverflow`): fit
the polynomial, compute raw residuals, shift by their minimum δ (absorbed
into the constant coefficient), and choose the smallest allowed
power-of-two width; when even 32 bits do not suffice, fall back to the zero
polynomial with width 32 so the residuals are the values themselves. -/
def encodeSpan (vals : List Nat) : SpanEnc :=
  match pickWidth (maxNat (shiftedResiduals vals)) with
  | some w =>
    ⟨((fitSpan vals).1 + (minInt (rawResiduals vals (fitSpan vals)) : ℚ),
      (fitSpan vals).2.1, (fitSpan vals).2.2), w, shiftedResiduals vals⟩
  | none => ⟨(0, 0, 0), 32, vals⟩

theorem encodeSpan_some (vals : List Nat) (w : Nat)
    (hw : pickWidth (maxNat (shiftedResiduals vals)) = some w) :
    encodeSpan vals =
      ⟨((fitSpan vals).1 + (minInt (rawResiduals vals (fitSpan vals)) : ℚ),
        (fitSpan vals).2.1, (fitSpan vals).2.2), w, shiftedResiduals vals⟩ := by
  unfold encodeSpan
  rw [hw]

theorem encodeSpan_none (vals : List Nat)
    (hw : pickWidth (maxNat (shiftedResiduals vals)) = none) :
    encodeSpan vals = ⟨(0, 0, 0), 32, vals⟩ := by
  unfold encodeSpan
  rw [hw]

theorem shiftedResiduals_length (vals : List Nat) :
    (shiftedResiduals vals).length = vals.length := by
  unfold shiftedResiduals rawResiduals
  simp

theorem encodeSpan_residuals_length (vals : List Nat) :
    (encodeSpan vals).residuals.length = vals.length := by
  cases hw : pickWidth (maxNat (shiftedResiduals vals)) with
  | some w => rw [encodeSpan_some vals w hw]; exact shiftedResiduals_length vals
  | none => rw [encodeSpan_none vals hw]

theorem encodeSpan_width_le (vals : List Nat) : (encodeSpan vals).width ≤ 32 := by
  cases hw : pickWidth (maxNat (shiftedResiduals vals)) with
  | some w =>
    rw [encodeSpan_some vals w hw]
    unfold pickWidth at hw
    have hmem : w ∈ widthsList := List.mem_of_find?_eq_some hw
    simp only [widthsList, List.mem_cons, List.not_mem_nil, or_false] at hmem
    show w ≤ 32
    omega
  | none => rw [encodeSpan_none vals hw]

/-- Shifting the constant coefficient shifts the evaluation. -/
theorem polyEval_shift (p : ℚ × ℚ × ℚ) (d : ℚ) (x : ℚ) :
    polyEval (p.1 + d, p.2.1, p.2.2) x = polyEval p x + d := by
  unfold polyEval
  ring

theorem roundHalf_add_int (v : ℚ) (d : ℤ) :
    roundHalf (v + (d : ℚ)) = roundHalf v + d := by
  unfold roundHalf
  rw [show v + (d : ℚ) + 1 / 2 = v + 1 / 2 + (d : ℚ) by ring, Int.floor_add_int]

theorem roundHalf_zero : roundHalf 0 = 0 := by
  unfold roundHalf
  norm_num

/-- The central per-span fact: every encoded residual fits the chosen width
and rounding the stored polynomial plus the residual recovers the value. -/
theorem encodeSpan_recovers (vals : List Nat) (hv : ∀ v ∈ vals, v < 2 ^ 32) :
    ∀ k, k < vals.length →
      (encodeSpan vals).residuals.getD k 0 < 2 ^ (encodeSpan vals).width ∧
      roundHalf (polyEval (encodeSpan vals).poly (k : ℚ)) +
        ((encodeSpan vals).residuals.getD k 0 : ℤ) = (vals.getD k 0 : ℤ) := by
  intro k hk
  have hrs_len : (rawResiduals vals (fitSpan vals)).length = vals.length := by
    unfold rawResiduals
    simp
  have hrsk : (rawResiduals vals (fitSpan vals)).getD k 0 =
      (vals.getD k 0 : ℤ) - roundHalf (polyEval (fitSpan vals) (k : ℚ)) := by
    unfold rawResiduals
    exact getD_map_range _ _ hk
  have hmemk : (rawResiduals vals (fitSpan vals)).getD k 0 ∈
      rawResiduals vals (fitSpan vals) := by
    rw [List.getD_eq_getElem _ _ (by omega)]
    exact List.getElem_mem (by omega)
  have hdle : minInt (rawResiduals vals (fitSpan vals)) ≤
      (rawResiduals vals (fitSpan vals)).getD k 0 :=
    minInt_le _ _ hmemk
  have hsrk : (shiftedResiduals vals).getD k 0 =
      ((rawResiduals vals (fitSpan vals)).getD k 0 -
        minInt (rawResiduals vals (fitSpan vals))).toNat := by
    unfold shiftedResiduals
    rw [List.getD_eq_getElem?_getD, List.getElem?_map,
      List.getElem?_eq_getElem (by omega : k < (rawResiduals vals (fitSpan vals)).length)]
    simp only [Option.map_some', Option.getD_some]
    rw [List.getD_eq_getElem _ _ (by omega)]
  have hsrk_cast : ((shiftedResiduals vals).getD k 0 : ℤ) =
      (rawResiduals vals (fitSpan vals)).getD k 0 -
        minInt (rawResiduals vals (fitSpan vals)) := by
    rw [hsrk, Int.toNat_of_nonneg (by omega)]
  cases hw : pickWidth (maxNat (shiftedResiduals vals)) with
  | some w =>
    rw [encodeSpan_some vals w hw]
    constructor
    · unfold pickWidth at hw
      have hwp := List.find?_some hw
      have hmx : maxNat (shiftedResiduals vals) < 2 ^ w := by simpa using hwp
      have hle : (shiftedResiduals vals).getD k 0 ≤ maxNat (shiftedResiduals vals) := by
        refine le_maxNat _ _ ?_
        rw [List.getD_eq_getElem _ _ (by rw [shiftedResiduals_length]; omega)]
        exact List.getElem_mem _
      exact lt_of_le_of_lt hle hmx
    · show roundHalf (polyEval ((fitSpan vals).1 +
          (minInt (rawResiduals vals (fitSpan vals)) : ℚ),
          (fitSpan vals).2.1, (fitSpan vals).2.2) (k : ℚ)) + _ = _
      rw [polyEval_shift, roundHalf_add_int, hsrk_cast, hrsk]
      ring
  | none =>
    rw [encodeSpan_none vals hw]
    constructor
    · show vals.getD k 0 < 2 ^ 32
      refine hv _ ?_
      rw [List.getD_eq_getElem _ _ hk]
      exact List.getElem_mem hk
    · show roundHalf (polyEval (0, 0, 0) (k : ℚ)) + ((vals.getD k 0 : ℕ) : ℤ) = _
      have hz : polyEval ((0 : ℚ), (0 : ℚ), (0 : ℚ)) (k : ℚ) = 0 := by
        unfold polyEval
        ring
      rw [hz, roundHalf_zero]
      ring

/-- Residual bounds alone (needed for bit-packing). -/
theorem encodeSpan_residuals_bound (vals : List Nat) (hv : ∀ v ∈ vals, v < 2 ^ 32) :
    ∀ r ∈ (encodeSpan vals).residuals, r < 2 ^ (encodeSpan vals).width := by
  intro r hr
  rcases List.mem_iff_getElem.mp hr with ⟨k, hk, hrk⟩
  have h2 := (encodeSpan_recovers vals hv k
    (by rw [← encodeSpan_residuals_length vals]; exact hk)).1
  rw [List.getD_eq_getElem _ _ hk] at h2
  rw [← hrk]
  exact h2

/-! ### Segmentation and the span planner -/

/-- Modelled from the spec (§3): split the input into segments of 1024
elements; the last may be shorter. -/
def segs (l : List Nat) : List (List Nat) :=
  match l with
  | [] => []
  | x :: tl => ((x :: tl).take 1024) :: segs ((x :: tl).drop 1024)
termination_by l.length
decreasing_by simp; omega

theorem segs_getD (nums : List Nat) (s : Nat) (h : 1024 * s < nums.length) :
    (segs nums).getD s [] = (nums.drop (1024 * s)).take 1024 := by
  induction s generalizing nums with
  | zero =>
    cases nums with
    | nil => simp at h
    | cons x tl =>
      rw [segs]
      simp
  | succ s ih =>
    cases nums with
    | nil => simp at h
    | cons x tl =>
      rw [segs]
      rw [List.getD_cons_succ]
      rw [ih _ (by simp at h ⊢; omega)]
      rw [List.drop_drop]
      congr 2
      omega

theorem segs_length (nums : List Nat) :
    (segs nums).length = (nums.length + 1023) / 1024 := by
  suffices h : ∀ n (l : List Nat), l.length ≤ n →
      (segs l).length = (l.length + 1023) / 1024 from h nums.length nums le_rfl
  intro n
  induction n with
  | zero =>
    intro l h
    have : l = [] := List.eq_nil_of_length_eq_zero (by omega)
    subst this
    simp [segs]
  | succ n ih =>
    intro l h
    cases l with
    | nil => simp [segs]
    | cons x tl =>
      rw [segs]
      simp only [List.length_cons]
      rw [ih _ (by simp at h ⊢; omega)]
      simp
      omega

theorem segs_mem_sub (nums : List Nat) :
    ∀ sv ∈ segs nums, ∀ v ∈ sv, v ∈ nums := by
  suffices h : ∀ n (l : List Nat), l.length ≤ n →
      ∀ sv ∈ segs l, ∀ v ∈ sv, v ∈ l from h nums.length nums le_rfl
  intro n
  induction n with
  | zero =>
    intro l h
    have : l = [] := List.eq_nil_of_length_eq_zero (by omega)
    subst this
    intro sv hsv
    simp [segs] at hsv
  | succ n ih =>
    intro l h
    cases l with
    | nil => intro sv hsv; simp [segs] at hsv
    | cons x tl =>
      intro sv hsv v hv
      rw [segs] at hsv
      rcases List.mem_cons.mp hsv with h1 | h1
      · subst h1
        exact List.mem_of_mem_take hv
      · have := ih ((x :: tl).drop 1024) (by simp at h ⊢; omega) sv h1 v hv
        exact List.mem_of_mem_drop this

/-- Number of 16-element blocks covering a segment of the given length. -/
def blockCount (len : Nat) : Nat := (len + 15) / 16

/-- Modelled from the spec (§4.2): per-element bit cost of a span covering
elements `[lo, hi)` of the segment: 256 bits of fixed overhead (three
float64 coefficients plus the config word) plus width·length, divided by
the length. -/
def perEltCost (vals : List Nat) (lo hi : Nat) : ℚ :=
  let sv := (vals.drop lo).take (hi - lo)
  ((256 : ℚ) + (((encodeSpan sv).width * sv.length : ℕ) : ℚ)) / (sv.length : ℚ)

/-- Modelled from the spec (§4.2, greedy grow-until-hurt): walk the
16-element blocks left to right keeping the current span's start block;
extend the span while the extension strictly lowers the per-element cost,
otherwise close it and start a new span at the block. -/
def greedyGo (vals : List Nat) : List Nat → Nat → List Nat → List Nat
  | [], _, acc => acc
  | b :: rest, cur, acc =>
    if perEltCost vals (cur * 16) (min ((b + 1) * 16) vals.length) <
        perEltCost vals (cur * 16) (b * 16) then
      greedyGo vals rest cur acc
    else
      greedyGo vals rest b (acc ++ [b])

/-- The block indices at which the spans of one segment start. -/
def spanStarts (vals : List Nat) : List Nat :=
  greedyGo vals ((List.range (blockCount vals.length)).drop 1) 0 [0]

theorem greedyGo_shape (vals : List Nat) (rest : List Nat) :
    ∀ (cur : Nat) (acc : List Nat), (acc ++ rest).Pairwise (· < ·) →
    ∃ extra, greedyGo vals rest cur acc = acc ++ extra ∧
      (acc ++ extra).Pairwise (· < ·) ∧ ∀ s ∈ extra, s ∈ rest := by
  induction rest with
  | nil =>
    intro cur acc h
    exact ⟨[], by simp [greedyGo], by simpa using h, by simp⟩
  | cons b rest ih =>
    intro cur acc h
    rw [greedyGo]
    split
    · have hsub : (acc ++ rest).Sublist (acc ++ b :: rest) :=
        (List.sublist_cons_self b rest).append_left acc
      obtain ⟨extra, he, hp, hs⟩ := ih cur acc (h.sublist hsub)
      exact ⟨extra, he, hp, fun s hs2 => List.mem_cons_of_mem b (hs s hs2)⟩
    · obtain ⟨extra, he, hp, hs⟩ := ih b (acc ++ [b]) (by simpa using h)
      refine ⟨b :: extra, ?_, ?_, ?_⟩
      · rw [he]
        simp
      · simpa using hp
      · intro s hs2
        rcases List.mem_cons.mp hs2 with h1 | h1
        · subst h1
          exact List.mem_cons_self _ _
        · exact List.mem_cons_of_mem _ (hs s h1)

theorem spanStarts_shape (vals : List Nat) (hne : 1 ≤ vals.length) :
    ∃ tl, spanStarts vals = 0 :: tl ∧ (0 :: tl).Pairwise (· < ·) ∧
      ∀ s ∈ (0 : Nat) :: tl, s < blockCount vals.length := by
  have hnb : 1 ≤ blockCount vals.length := by
    unfold blockCount
    omega
  have hrange : ([0] ++ (List.range (blockCount vals.length)).drop 1).Pairwise (· < ·) := by
    obtain ⟨m, hm⟩ : ∃ m, blockCount vals.length = m + 1 :=
      ⟨blockCount vals.length - 1, by omega⟩
    have hid : ([0] ++ ((List.range (m + 1)).drop 1)) = List.range (m + 1) := by
      rw [List.range_succ_eq_map]
      rfl
    rw [hm, hid]
    exact List.pairwise_lt_range _
  obtain ⟨extra, he, hp, hs⟩ := greedyGo_shape vals _ 0 [0] hrange
  refine ⟨extra, ?_, ?_, ?_⟩
  · rw [spanStarts, he]
    rfl
  · simpa using hp
  · intro s hsm
    rcases List.mem_cons.mp hsm with h1 | h1
    · omega
    · have := hs s h1
      have := List.mem_of_mem_drop this
      exact List.mem_range.mp this

/-! ### Bitmap, rank and span location -/

/-- Modelled from the spec (§3): the segment bitmap has bit `j` set iff a
span begins at block `j`. -/
def bitmapOf (starts : List Nat) : Nat :=
  starts.foldr (fun s a => a ||| 2 ^ s) 0

/-- Population count of a 64-bit word. -/
def popCount64 (x : Nat) : Nat :=
  ((Finset.range 64).filter fun j => x.testBit j).card

/-- Modelled from the spec (§4.4 step 4): the position of the highest set
bit at or below `b` (0 when none is set below). -/
def findLastBit (x : Nat) : Nat → Nat
  | 0 => 0
  | b + 1 => if x.testBit (b + 1) then b + 1 else findLastBit x b

theorem testBit_bitmapOf (starts : List Nat) (p : Nat) :
    (bitmapOf starts).testBit p = true ↔ p ∈ starts := by
  induction starts with
  | nil => simp [bitmapOf]
  | cons s tl ih =>
    show ((bitmapOf tl) ||| 2 ^ s).testBit p = true ↔ _
    rw [Nat.testBit_lor]
    rw [Bool.or_eq_true]
    rw [ih]
    constructor
    · rintro (h | h)
      · exact List.mem_cons_of_mem _ h
      · have : s = p := by
          by_contra hne
          rw [Nat.testBit_two_pow_of_ne hne] at h
          exact Bool.false_ne_true h
        subst this
        exact List.mem_cons_self _ _
    · intro h
      rcases List.mem_cons.mp h with h1 | h1
      · subst h1
        right
        exact Nat.testBit_two_pow_self
      · exact Or.inl h1

theorem popCount64_land_mask (starts : List Nat) (hnd : starts.Nodup) (b : Nat)
    (hb : b < 64) :
    popCount64 (bitmapOf starts &&& (2 ^ (b + 1) - 1)) =
      starts.countP fun s => decide (s ≤ b) := by
  unfold popCount64
  have hset : ((Finset.range 64).filter fun j =>
      (bitmapOf starts &&& (2 ^ (b + 1) - 1)).testBit j) =
      (starts.filter fun s => decide (s ≤ b)).toFinset := by
    ext j
    simp only [Finset.mem_filter, Finset.mem_range, List.mem_toFinset,
      List.mem_filter, decide_eq_true_eq]
    rw [Nat.testBit_land, Nat.testBit_two_pow_sub_one, Bool.and_eq_true,
      decide_eq_true_eq]
    constructor
    · rintro ⟨hj64, htb, hjb⟩
      exact ⟨(testBit_bitmapOf starts j).mp htb, by omega⟩
    · rintro ⟨hmem, hle⟩
      exact ⟨by omega, (testBit_bitmapOf starts j).mpr hmem, by omega⟩
  rw [hset, List.card_toFinset, (hnd.filter _).dedup,
    List.countP_eq_length_filter]

theorem popCount64_full (starts : List Nat) (hnd : starts.Nodup)
    (hlt : ∀ s ∈ starts, s < 64) :
    popCount64 (bitmapOf starts) = starts.length := by
  unfold popCount64
  have hset : ((Finset.range 64).filter fun j => (bitmapOf starts).testBit j) =
      starts.toFinset := by
    ext j
    simp only [Finset.mem_filter, Finset.mem_range, List.mem_toFinset]
    constructor
    · rintro ⟨hj64, htb⟩
      exact (testBit_bitmapOf starts j).mp htb
    · intro hmem
      exact ⟨hlt j hmem, (testBit_bitmapOf starts j).mpr hmem⟩
  rw [hset, List.card_toFinset, hnd.dedup]

theorem findLastBit_eq (x : Nat) (b s : Nat) (hs : s ≤ b) (hbit : x.testBit s = true)
    (habove : ∀ p, s < p → p ≤ b → x.testBit p = false) :
    findLastBit x b = s := by
  induction b with
  | zero =>
    have : s = 0 := by omega
    rw [findLastBit, this]
  | succ b ih =>
    rw [findLastBit]
    by_cases htb : x.testBit (b + 1) = true
    · rw [if_pos htb]
      by_contra hne
      have hsb : s ≤ b := by
        rcases Nat.lt_or_ge s (b + 1) with h1 | h1
        · omega
        · omega
      have := habove (b + 1) (by omega) (le_refl _)
      rw [this] at htb
      exact Bool.false_ne_true htb
    · rw [if_neg htb]
      have hsb : s ≤ b := by
        rcases Nat.eq_or_lt_of_le hs with h1 | h1
        · subst h1
          exact absurd hbit htb
        · omega
      exact ih hsb fun p hp hpb => habove p hp (by omega)

/-- In a sorted list the elements `≤ b` form a prefix: positions below the
count are `≤ b`, positions at or above it are `> b`. -/
theorem countP_sorted_prefix (l : List Nat) (hl : l.Pairwise (· < ·)) (b : Nat) :
    (∀ m, m < l.countP (fun s => decide (s ≤ b)) → l.getD m 0 ≤ b) ∧
    (∀ m, l.countP (fun s => decide (s ≤ b)) ≤ m → m < l.length → b < l.getD m 0) := by
  induction l with
  | nil =>
    constructor
    · intro m hm
      simp at hm
    · intro m _ hm
      simp at hm
  | cons s tl ih =>
    obtain ⟨hall, htl⟩ := List.pairwise_cons.mp hl
    obtain ⟨ih1, ih2⟩ := ih htl
    by_cases hsb : s ≤ b
    · rw [List.countP_cons_of_pos _ _ (by simpa using hsb)]
      constructor
      · intro m hm
        cases m with
        | zero => simpa using hsb
        | succ m =>
          rw [List.getD_cons_succ]
          exact ih1 m (by omega)
      · intro m hm hmlen
        cases m with
        | zero => omega
        | succ m =>
          rw [List.getD_cons_succ]
          exact ih2 m (by omega) (by simpa using hmlen)
    · have hcnt : tl.countP (fun s => decide (s ≤ b)) = 0 := by
        rw [List.countP_eq_zero]
        intro a ha
        have := hall a ha
        simp only [decide_eq_true_eq]
        omega
      rw [List.countP_cons_of_neg _ _ (by simpa using hsb), hcnt]
      constructor
      · intro m hm
        omega
      · intro m _ hmlen
        cases m with
        | zero =>
          rw [List.getD_cons_zero]
          omega
        | succ m =>
          rw [List.getD_cons_succ]
          have hmem : tl.getD m 0 ∈ tl := by
            rw [List.getD_eq_getElem _ _ (by simpa using hmlen)]
            exact List.getElem_mem _
          have := hall _ hmem
          omega

/-! ### Bit packing of the residuals -/

/-- Little-endian packing of one span's residuals: residual `k` occupies
bits `[k·w, (k+1)·w)`. -/
def packNat (w : Nat) : List Nat → Nat
  | [] => 0
  | r :: tl => r + packNat w tl * 2 ^ w

theorem packNat_lt (w : Nat) (rs : List Nat) (hb : ∀ r ∈ rs, r < 2 ^ w) :
    packNat w rs < 2 ^ (w * rs.length) := by
  induction rs with
  | nil => simp [packNat]
  | cons r tl ih =>
    have h1 : r < 2 ^ w := hb r (List.mem_cons_self _ _)
    have h2 : packNat w tl < 2 ^ (w * tl.length) :=
      ih fun x hx => hb x (List.mem_cons_of_mem _ hx)
    show r + packNat w tl * 2 ^ w < 2 ^ (w * (tl.length + 1))
    calc r + packNat w tl * 2 ^ w < 2 ^ w + packNat w tl * 2 ^ w := by omega
      _ = (packNat w tl + 1) * 2 ^ w := by ring
      _ ≤ 2 ^ (w * tl.length) * 2 ^ w := Nat.mul_le_mul_right _ (by omega)
      _ = 2 ^ (w * (tl.length + 1)) := by
          rw [← pow_add]
          ring_nf

theorem packNat_extract (w : Nat) (rs : List Nat) (hb : ∀ r ∈ rs, r < 2 ^ w)
    (k : Nat) (hk : k < rs.length) :
    packNat w rs / 2 ^ (k * w) % 2 ^ w = rs.getD k 0 := by
  induction rs generalizing k with
  | nil => simp at hk
  | cons r tl ih =>
    cases k with
    | zero =>
      show (r + packNat w tl * 2 ^ w) / 2 ^ (0 * w) % 2 ^ w = r
      rw [Nat.zero_mul, pow_zero, Nat.div_one, Nat.add_mul_mod_self_right]
      exact Nat.mod_eq_of_lt (hb r (List.mem_cons_self _ _))
    | succ k =>
      have hr : r < 2 ^ w := hb r (List.mem_cons_self _ _)
      show (r + packNat w tl * 2 ^ w) / 2 ^ ((k + 1) * w) % 2 ^ w = tl.getD k 0
      have hsplit : (k + 1) * w = w + k * w := by ring
      rw [hsplit, pow_add, ← Nat.div_div_eq_div_mul]
      have hdiv : (r + packNat w tl * 2 ^ w) / 2 ^ w = packNat w tl := by
        rw [Nat.add_mul_div_right _ _ (Nat.pos_pow_of_pos w (by omega)),
          Nat.div_eq_of_lt hr, Nat.zero_add]
      rw [hdiv]
      exact ih (fun x hx => hb x (List.mem_cons_of_mem _ hx)) k (by simpa using hk)

/-- Bits occupied by one span in the residual buffer. -/
def spanBits (sv : List Nat) : Nat := (encodeSpan sv).width * sv.length

/-- Modelled from the spec (§4.3 step 5, §6): the single bit-packed residual
buffer, spans packed in stream order; `Nat` plays the role of the `u64`
word array. -/
def packStream : List (List Nat × Nat) → Nat
  | [] => 0
  | x :: rest => packNat (encodeSpan x.1).width (encodeSpan x.1).residuals +
      packStream rest * 2 ^ spanBits x.1

/-- The running bit cursor at the start of span `t` (§4.3). -/
def cursorAt (st : List (List Nat × Nat)) (t : Nat) : Nat :=
  ((st.take t).map fun x => spanBits x.1).sum

theorem cursorAt_succ (x : List Nat × Nat) (rest : List (List Nat × Nat)) (t : Nat) :
    cursorAt (x :: rest) (t + 1) = spanBits x.1 + cursorAt rest t := by
  simp [cursorAt]

theorem packStream_extract (st : List (List Nat × Nat))
    (hb : ∀ x ∈ st, ∀ r ∈ (encodeSpan x.1).residuals, r < 2 ^ (encodeSpan x.1).width)
    (t : Nat) (ht : t < st.length) (k : Nat)
    (hk : k < (st.getD t ([], 0)).1.length) :
    packStream st >>> (cursorAt st t + k * (encodeSpan (st.getD t ([], 0)).1).width) &&&
      (2 ^ (encodeSpan (st.getD t ([], 0)).1).width - 1) =
    (encodeSpan (st.getD t ([], 0)).1).residuals.getD k 0 := by
  induction st generalizing t with
  | nil => simp at ht
  | cons x rest ih =>
    rw [Nat.and_pow_two_sub_one_eq_mod, Nat.shiftRight_eq_div_pow]
    have hbx : ∀ r ∈ (encodeSpan x.1).residuals, r < 2 ^ (encodeSpan x.1).width :=
      hb x (List.mem_cons_self _ _)
    cases t with
    | zero =>
      simp only [List.getD_cons_zero] at hk ⊢
      show (packNat (encodeSpan x.1).width (encodeSpan x.1).residuals +
          packStream rest * 2 ^ spanBits x.1) /
          2 ^ (cursorAt (x :: rest) 0 + k * (encodeSpan x.1).width) %
          2 ^ (encodeSpan x.1).width = _
      have hcz : cursorAt (x :: rest) 0 = 0 := rfl
      rw [hcz, Nat.zero_add]
      have hlen : (encodeSpan x.1).residuals.length = x.1.length :=
        encodeSpan_residuals_length x.1
      obtain ⟨c, hc⟩ : ∃ c, spanBits x.1 =
          k * (encodeSpan x.1).width + (encodeSpan x.1).width + c := by
        refine ⟨spanBits x.1 - (k * (encodeSpan x.1).width + (encodeSpan x.1).width), ?_⟩
        have h1 : (k + 1) * (encodeSpan x.1).width ≤ x.1.length * (encodeSpan x.1).width :=
          Nat.mul_le_mul_right _ (by omega)
        have h2 : (k + 1) * (encodeSpan x.1).width =
            k * (encodeSpan x.1).width + (encodeSpan x.1).width := by ring
        have h3 : spanBits x.1 = x.1.length * (encodeSpan x.1).width := by
          unfold spanBits
          ring
        omega
      rw [hc]
      have hrw : packNat (encodeSpan x.1).width (encodeSpan x.1).residuals +
          packStream rest *
            2 ^ (k * (encodeSpan x.1).width + (encodeSpan x.1).width + c) =
          packNat (encodeSpan x.1).width (encodeSpan x.1).residuals +
            (packStream rest * 2 ^ c * 2 ^ (encodeSpan x.1).width) *
              2 ^ (k * (encodeSpan x.1).width) := by
        rw [pow_add, pow_add]
        ring
      rw [hrw, Nat.add_mul_div_right _ _ (Nat.pos_pow_of_pos _ (by omega)),
        Nat.add_mul_mod_self_right]
      exact packNat_extract _ _ hbx k (by omega)
    | succ t =>
      simp only [List.getD_cons_succ] at hk ⊢
      rw [cursorAt_succ]
      have hA : packNat (encodeSpan x.1).width (encodeSpan x.1).residuals <
          2 ^ spanBits x.1 := by
        have := packNat_lt (encodeSpan x.1).width (encodeSpan x.1).residuals hbx
        unfold spanBits
        rw [encodeSpan_residuals_length x.1] at this
        exact this
      rw [packStream, Nat.add_assoc, pow_add, ← Nat.div_div_eq_div_mul]
      have hdiv : (packNat (encodeSpan x.1).width (encodeSpan x.1).residuals +
          packStream rest * 2 ^ spanBits x.1) / 2 ^ spanBits x.1 = packStream rest := by
        rw [Nat.add_mul_div_right _ _ (Nat.pos_pow_of_pos _ (by omega)),
          Nat.div_eq_of_lt hA, Nat.zero_add]
      rw [hdiv]
      have := ih (fun z hz => hb z (List.mem_cons_of_mem _ hz)) t (by simpa using ht) hk
      rw [Nat.and_pow_two_sub_one_eq_mod, Nat.shiftRight_eq_div_pow] at this
      exact this

/-! ### Spans of a segment, the global span stream, encoder and decoder -/

/-- The element index within the segment where span `j` begins. -/
def spanLo (starts : List Nat) (j : Nat) : Nat := 16 * starts.getD j 0

/-- The element index where span `j` ends: the next span's start, or the
segment length for the last span. -/
def spanHi (starts : List Nat) (len j : Nat) : Nat :=
  if j + 1 < starts.length then 16 * starts.getD (j + 1) 0 else len

/-- The spans of one segment, each paired with the element index within the
segment at which it starts. -/
def segSpans (vals : List Nat) : List (List Nat × Nat) :=
  (List.range (spanStarts vals).length).map fun j =>
    ((vals.drop (spanLo (spanStarts vals) j)).take
      (spanHi (spanStarts vals) vals.length j - spanLo (spanStarts vals) j),
     spanLo (spanStarts vals) j)

/-- All spans of all segments, in order. -/
def spanStream (nums : List Nat) : List (List Nat × Nat) :=
  (segs nums).flatMap segSpans

/-- The logical fields of the compressed array (§6).  A span's config is
modelled as the pair `(offset, residual_width)` that the Go code packs into
a single `int64`. -/
structure SlimArray where
  N : Nat
  Rank : List Nat
  Bitmap : List Nat
  Polynomials : List ℚ
  Configs : List (ℤ × Nat)
  Residuals : Nat

/-- Modelled from the spec (§4.3 and §6): the encoder.  `Rank` is the
running popcount of the preceding bitmaps, `Bitmap` the per-segment span
bitmaps, `Polynomials` three coefficients per span, `Configs` the pair
`(offset, width)` with `offset = bit_cursor − first_local_index · width`,
and `Residuals` the bit-packed buffer. -/
def encode (nums : List Nat) : SlimArray :=
  { N := nums.length
    Rank := (List.range (segs nums).length).map fun s =>
      ((((segs nums).take s).map fun sv => popCount64 (bitmapOf (spanStarts sv))).sum)
    Bitmap := (segs nums).map fun sv => bitmapOf (spanStarts sv)
    Polynomials := (spanStream nums).flatMap fun x =>
      [(encodeSpan x.1).poly.1, (encodeSpan x.1).poly.2.1, (encodeSpan x.1).poly.2.2]
    Configs := (List.range (spanStream nums).length).map fun t =>
      ((cursorAt (spanStream nums) t : ℤ) -
        (((spanStream nums).getD t ([], 0)).2 : ℤ) *
          ((encodeSpan ((spanStream nums).getD t ([], 0)).1).width : ℤ),
       (encodeSpan ((spanStream nums).getD t ([], 0)).1).width)
    Residuals := packStream (spanStream nums) }

/-- Modelled from the spec (§4.4): constant-time random access.  Locates
the segment, uses popcount of the masked bitmap to find the span, evaluates
the polynomial at the in-span index, extracts the packed residual at
`offset + local·width`, and returns the `uint32` cast of their sum. -/
def SlimArray.get (a : SlimArray) (i : Nat) : Nat :=
  let seg := i / 1024
  let loc := i % 1024
  let blk := loc / 16
  let bm := a.Bitmap.getD seg 0
  let spanInSeg := popCount64 (bm &&& (2 ^ (blk + 1) - 1)) - 1
  let t := a.Rank.getD seg 0 + spanInSeg
  let pa := a.Polynomials.getD (3 * t) 0
  let pb := a.Polynomials.getD (3 * t + 1) 0
  let pc := a.Polynomials.getD (3 * t + 2) 0
  let cfg := a.Configs.getD t (0, 0)
  let sb := findLastBit bm blk
  let x : ℚ := (loc : ℚ) - 16 * (sb : ℚ)
  let y : ℤ := roundHalf (polyEval (pa, pb, pc) x)
  let pos := (cfg.1 + (loc : ℤ) * (cfg.2 : ℤ)).toNat
  let r := a.Residuals >>> pos &&& (2 ^ cfg.2 - 1)
  ((y + (r : ℤ)) % (2 ^ 32 : ℤ)).toNat

/-! ### Access lemmas for the packed fields -/

theorem getD_map_of_lt {α β : Type} (f : α → β) (l : List α) (j : Nat)
    (d : β) (d0 : α) (h : j < l.length) :
    (l.map f).getD j d = f (l.getD j d0) := by
  rw [List.getD_eq_getElem?_getD, List.getElem?_map,
    List.getElem?_eq_getElem h, List.getD_eq_getElem _ _ h]
  rfl

theorem getD_take_lt {α : Type} (l : List α) (n k : Nat) (d : α) (hk : k < n) :
    (l.take n).getD k d = l.getD k d := by
  rw [List.getD_eq_getElem?_getD, List.getD_eq_getElem?_getD,
    List.getElem?_take, if_pos hk]

theorem getD_drop {α : Type} (l : List α) (n k : Nat) (d : α) :
    (l.drop n).getD k d = l.getD (n + k) d := by
  rw [List.getD_eq_getElem?_getD, List.getD_eq_getElem?_getD,
    List.getElem?_drop]

theorem flatMap_getD {α β : Type} (f : α → List β) (dα : α) (dβ : β) :
    ∀ (ls : List α) (s j : Nat), s < ls.length → j < (f (ls.getD s dα)).length →
    (ls.flatMap f).getD ((((ls.take s).map fun a => (f a).length).sum) + j) dβ =
      (f (ls.getD s dα)).getD j dβ := by
  intro ls
  induction ls with
  | nil =>
    intro s j hs hj
    simp at hs
  | cons a tl ih =>
    intro s j hs hj
    cases s with
    | zero =>
      rw [List.flatMap_cons]
      simp only [List.take_zero, List.map_nil, List.sum_nil, Nat.zero_add,
        List.getD_cons_zero] at hj ⊢
      exact getD_append_left _ _ _ _ hj
    | succ s =>
      rw [List.flatMap_cons]
      simp only [List.take_succ_cons, List.map_cons, List.sum_cons,
        List.getD_cons_succ] at hj ⊢
      rw [Nat.add_assoc, getD_append_add]
      exact ih s j (by simpa using hs) hj

theorem segSpans_length (vals : List Nat) :
    (segSpans vals).length = (spanStarts vals).length := by
  simp [segSpans]

theorem segSpans_getD (vals : List Nat) (j : Nat) (hj : j < (spanStarts vals).length) :
    (segSpans vals).getD j ([], 0) =
      ((vals.drop (spanLo (spanStarts vals) j)).take
        (spanHi (spanStarts vals) vals.length j - spanLo (spanStarts vals) j),
       spanLo (spanStarts vals) j) := by
  unfold segSpans
  exact getD_map_range _ _ hj

/-- `getD` on the per-span polynomial array. -/
theorem poly3_getD (st : List (List Nat × Nat)) :
    ∀ t, t < st.length →
      (st.flatMap fun x =>
        [(encodeSpan x.1).poly.1, (encodeSpan x.1).poly.2.1,
          (encodeSpan x.1).poly.2.2]).getD (3 * t) 0 =
        (encodeSpan (st.getD t ([], 0)).1).poly.1 ∧
      (st.flatMap fun x =>
        [(encodeSpan x.1).poly.1, (encodeSpan x.1).poly.2.1,
          (encodeSpan x.1).poly.2.2]).getD (3 * t + 1) 0 =
        (encodeSpan (st.getD t ([], 0)).1).poly.2.1 ∧
      (st.flatMap fun x =>
        [(encodeSpan x.1).poly.1, (encodeSpan x.1).poly.2.1,
          (encodeSpan x.1).poly.2.2]).getD (3 * t + 2) 0 =
        (encodeSpan (st.getD t ([], 0)).1).poly.2.2 := by
  induction st with
  | nil =>
    intro t ht
    simp at ht
  | cons x rest ih =>
    intro t ht
    cases t with
    | zero =>
      rw [List.flatMap_cons]
      refine ⟨?_, ?_, ?_⟩ <;> simp
    | succ t =>
      rw [List.flatMap_cons]
      have h3 : ∀ k, 3 * (t + 1) + k =
          ([(encodeSpan x.1).poly.1, (encodeSpan x.1).poly.2.1,
            (encodeSpan x.1).poly.2.2].length) + (3 * t + k) := by
        intro k
        simp
        omega
      obtain ⟨i1, i2, i3⟩ := ih t (by simpa using ht)
      refine ⟨?_, ?_, ?_⟩
      · rw [show 3 * (t + 1) = 3 * (t + 1) + 0 by omega, h3 0, getD_append_add]
        simpa using i1
      · rw [h3 1, getD_append_add]
        simpa using i2
      · rw [h3 2, getD_append_add]
        simpa using i3

/-! ### Locating the span of an element within its segment -/

theorem segment_locate (vals : List Nat) (hlen1 : 1 ≤ vals.length)
    (loc : Nat) (hloc : loc < vals.length) (hloc2 : loc < 1024) :
    ∃ j, j < (spanStarts vals).length ∧
      popCount64 (bitmapOf (spanStarts vals) &&& (2 ^ (loc / 16 + 1) - 1)) = j + 1 ∧
      findLastBit (bitmapOf (spanStarts vals)) (loc / 16) = (spanStarts vals).getD j 0 ∧
      spanLo (spanStarts vals) j ≤ loc ∧
      loc < spanHi (spanStarts vals) vals.length j ∧
      spanHi (spanStarts vals) vals.length j ≤ vals.length := by
  obtain ⟨tl, hst, hsort, hmem⟩ := spanStarts_shape vals hlen1
  set starts := spanStarts vals with hstarts
  have hnd : starts.Nodup := by
    rw [hst]
    exact (hsort.imp fun h => Nat.ne_of_lt h)
  have hblk : loc / 16 < 64 := by omega
  have hsort2 : starts.Pairwise (· < ·) := by rw [hst]; exact hsort
  have hcount := countP_sorted_prefix starts hsort2 (loc / 16)
  obtain ⟨hpre, hpost⟩ := hcount
  set c := starts.countP fun s => decide (s ≤ loc / 16) with hc
  have hc1 : 1 ≤ c := by
    rw [hc]
    refine List.countP_pos.mpr ⟨0, ?_, by simp⟩
    rw [hst]
    exact List.mem_cons_self _ _
  have hcle : c ≤ starts.length := List.countP_le_length _
  refine ⟨c - 1, by omega, ?_, ?_, ?_, ?_, ?_⟩
  · rw [popCount64_land_mask starts hnd (loc / 16) hblk, ← hc]
    omega
  · have hjlt : c - 1 < starts.length := by omega
    refine findLastBit_eq _ _ _ (hpre (c - 1) (by omega)) ?_ ?_
    · exact (testBit_bitmapOf starts _).mpr
        (by rw [List.getD_eq_getElem _ _ hjlt]; exact List.getElem_mem _)
    · intro p hp hpb
      rw [← Bool.not_eq_true]
      intro htb
      have hpmem : p ∈ starts := (testBit_bitmapOf starts p).mp htb
      obtain ⟨m, hm, hmp⟩ := List.mem_iff_getElem.mp hpmem
      have hpair := List.pairwise_iff_getElem.mp hsort2
      rcases Nat.lt_trichotomy m (c - 1) with h1 | h1 | h1
      · have := hpair m (c - 1) hm hjlt h1
        rw [hmp, ← List.getD_eq_getElem starts 0 hjlt] at this
        omega
      · subst h1
        rw [← List.getD_eq_getElem starts 0 hm] at hmp
        omega
      · have := hpost m (by omega) hm
        rw [List.getD_eq_getElem starts 0 hm, hmp] at this
        omega
  · unfold spanLo
    have := hpre (c - 1) (by omega)
    omega
  · unfold spanHi
    by_cases hj1 : c - 1 + 1 < starts.length
    · rw [if_pos hj1]
      have := hpost (c - 1 + 1) (by omega) hj1
      omega
    · rw [if_neg hj1]
      exact hloc
  · unfold spanHi
    by_cases hj1 : c - 1 + 1 < starts.length
    · rw [if_pos hj1]
      have hmemn : starts.getD (c - 1 + 1) 0 ∈ starts := by
        rw [List.getD_eq_getElem _ _ hj1]
        exact List.getElem_mem _
      have hlt := hmem _ (by rw [← hst]; exact hmemn)
      unfold blockCount at hlt
      omega
    · rw [if_neg hj1]

theorem segs_mem_len (nums : List Nat) :
    ∀ sv ∈ segs nums, 1 ≤ sv.length ∧ sv.length ≤ 1024 := by
  suffices h : ∀ n (l : List Nat), l.length ≤ n →
      ∀ sv ∈ segs l, 1 ≤ sv.length ∧ sv.length ≤ 1024 from h nums.length nums le_rfl
  intro n
  induction n with
  | zero =>
    intro l h sv hsv
    have : l = [] := List.eq_nil_of_length_eq_zero (by omega)
    subst this
    simp [segs] at hsv
  | succ n ih =>
    intro l h
    cases l with
    | nil => intro sv hsv; simp [segs] at hsv
    | cons x tl =>
      intro sv hsv
      rw [segs] at hsv
      rcases List.mem_cons.mp hsv with h1 | h1
      · subst h1
        simp
      · exact ih ((x :: tl).drop 1024) (by simp at h ⊢; omega) sv h1

theorem flatMap_length_lower {α β : Type} (f : α → List β) (dα : α) :
    ∀ (ls : List α) (s j : Nat), s < ls.length → j < (f (ls.getD s dα)).length →
    (((ls.take s).map fun a => (f a).length).sum) + j < (ls.flatMap f).length := by
  intro ls
  induction ls with
  | nil =>
    intro s j hs hj
    simp at hs
  | cons a tl ih =>
    intro s j hs hj
    cases s with
    | zero =>
      rw [List.flatMap_cons, List.length_append]
      simp only [List.take_zero, List.map_nil, List.sum_nil, Nat.zero_add,
        List.getD_cons_zero] at hj ⊢
      omega
    | succ s =>
      rw [List.flatMap_cons, List.length_append]
      simp only [List.take_succ_cons, List.map_cons, List.sum_cons,
        List.getD_cons_succ] at hj ⊢
      have := ih s j (by simpa using hs) hj
      omega

theorem spanStream_mem_sub (nums : List Nat) :
    ∀ x ∈ spanStream nums, ∀ v ∈ x.1, v ∈ nums := by
  intro x hx v hv
  obtain ⟨sv, hsv, hxs⟩ := List.mem_flatMap.mp hx
  unfold segSpans at hxs
  obtain ⟨jj, hjj, hxe⟩ := List.mem_map.mp hxs
  rw [← hxe] at hv
  exact segs_mem_sub nums sv hsv v
    (List.mem_of_mem_drop (List.mem_of_mem_take hv))

theorem spanStream_bound (nums : List Nat) (hr : ∀ v ∈ nums, v < 2 ^ 32) :
    ∀ x ∈ spanStream nums, ∀ r ∈ (encodeSpan x.1).residuals,
      r < 2 ^ (encodeSpan x.1).width := by
  intro x hx
  exact encodeSpan_residuals_bound x.1 fun v hv =>
    hr v (spanStream_mem_sub nums x hx v hv)

theorem popCount_spanStarts (sv : List Nat) (h1 : 1 ≤ sv.length)
    (h2 : sv.length ≤ 1024) :
    popCount64 (bitmapOf (spanStarts sv)) = (segSpans sv).length := by
  obtain ⟨tl2, hst2, hsort2, hmem2⟩ := spanStarts_shape sv h1
  rw [segSpans_length]
  refine popCount64_full _ ?_ ?_
  · rw [hst2]
    exact hsort2.imp fun h => Nat.ne_of_lt h
  · intro s hs
    have := hmem2 s (by rw [← hst2]; exact hs)
    unfold blockCount at this
    omega

/-! ### C1: exact recovery -/

/-- C1: for every input sequence of `uint32` values and every index
`i < N`, `get i` on the encoded array returns exactly `nums[i]`.  The
encoder and decoder are modelled from the specification (the compression
code itself is not among the provided sources); float64 polynomial
arithmetic is exact rational arithmetic on both sides. -/
theorem encode_get_exact (nums : List Nat) (hr : ∀ v ∈ nums, v < 2 ^ 32)
    (i : Nat) (hi : i < nums.length) :
    (encode nums).get i = nums.getD i 0 := by
  have hdm := Nat.div_add_mod i 1024
  set seg := i / 1024 with hseg
  set loc := i % 1024 with hloc
  have hloc1024 : loc < 1024 := Nat.mod_lt _ (by omega)
  have hseglt : seg < (segs nums).length := by
    rw [segs_length]
    omega
  set segVals := (segs nums).getD seg [] with hsegVals
  have hsegeq : segVals = (nums.drop (1024 * seg)).take 1024 :=
    segs_getD nums seg (by omega)
  have hsvlen : segVals.length = min 1024 (nums.length - 1024 * seg) := by
    rw [hsegeq]
    simp
  have hlen1 : 1 ≤ segVals.length := by omega
  have hloclt : loc < segVals.length := by omega
  have hsv_get : segVals.getD loc 0 = nums.getD i 0 := by
    rw [hsegeq, getD_take_lt _ _ _ _ hloc1024, getD_drop]
    have he : 1024 * seg + loc = i := by omega
    rw [he]
  obtain ⟨j, hjlt, hpc, hflb, hlo, hhi, hhiL⟩ :=
    segment_locate segVals hlen1 loc hloclt hloc1024
  -- the span's data
  set starts := spanStarts segVals with hstarts
  set lo := spanLo starts j with hlodef
  set hi2 := spanHi starts segVals.length j with hhidef
  set sv := (segVals.drop lo).take (hi2 - lo) with hsvdef
  set k := loc - lo with hkdef
  have hsvlen2 : sv.length = hi2 - lo := by
    rw [hsvdef]
    simp
    omega
  have hklt : k < sv.length := by omega
  have hsvk : sv.getD k 0 = segVals.getD loc 0 := by
    rw [hsvdef, getD_take_lt _ _ _ _ (by omega), getD_drop]
    congr 1
    omega
  -- stream position
  have hrank : (encode nums).Rank.getD seg 0 =
      (((segs nums).take seg).map fun a => (segSpans a).length).sum := by
    show ((List.range _).map _).getD seg 0 = _
    rw [getD_map_range _ _ hseglt]
    refine congrArg List.sum (List.map_congr_left fun a ha => ?_)
    have := segs_mem_len nums a (List.mem_of_mem_take ha)
    exact popCount_spanStarts a this.1 this.2
  have hjlt2 : j < (segSpans segVals).length := by
    rw [segSpans_length]
    exact hjlt
  set t := (encode nums).Rank.getD seg 0 + j with htdef
  have htlt : t < (spanStream nums).length := by
    rw [htdef, hrank]
    exact flatMap_length_lower segSpans [] (segs nums) seg j hseglt hjlt2
  have hstg : (spanStream nums).getD t ([], 0) = (sv, lo) := by
    rw [htdef, hrank]
    unfold spanStream
    rw [flatMap_getD segSpans [] ([], 0) (segs nums) seg j hseglt hjlt2]
    rw [segSpans_getD segVals j hjlt]
  -- decoder fields
  have hbm : (encode nums).Bitmap.getD seg 0 = bitmapOf starts := by
    show ((segs nums).map _).getD seg 0 = _
    rw [getD_map_of_lt _ _ _ _ [] hseglt]
  have hpoly := poly3_getD (spanStream nums) t htlt
  have hcfg : (encode nums).Configs.getD t (0, 0) =
      ((cursorAt (spanStream nums) t : ℤ) -
        (lo : ℤ) * ((encodeSpan sv).width : ℤ), (encodeSpan sv).width) := by
    show ((List.range _).map _).getD t (0, 0) = _
    rw [getD_map_range _ _ htlt, hstg]
  -- the value equations
  have hrec := encodeSpan_recovers sv
    (fun v hv => hr v (spanStream_mem_sub nums (sv, lo)
      (by rw [← hstg]; rw [List.getD_eq_getElem _ _ htlt]; exact List.getElem_mem _) v hv))
    k hklt
  -- cast equalities for the in-span abscissa and the residual bit position
  have hkq : (loc : ℚ) - 16 * ((starts.getD j 0 : ℕ) : ℚ) = (k : ℚ) := by
    have h16 : (16 : ℚ) * ((starts.getD j 0 : ℕ) : ℚ) = ((spanLo starts j : ℕ) : ℚ) := by
      unfold spanLo
      push_cast
      ring
    rw [h16, ← hlodef, hkdef, Nat.cast_sub hlo]
  have hposz : ((cursorAt (spanStream nums) t : ℤ) -
      (lo : ℤ) * ((encodeSpan sv).width : ℤ) +
      (loc : ℤ) * ((encodeSpan sv).width : ℤ)).toNat =
      cursorAt (spanStream nums) t + k * (encodeSpan sv).width := by
    have hkz : (k : ℤ) = (loc : ℤ) - (lo : ℤ) := by
      rw [hkdef]
      omega
    have heq : (cursorAt (spanStream nums) t : ℤ) -
        (lo : ℤ) * ((encodeSpan sv).width : ℤ) +
        (loc : ℤ) * ((encodeSpan sv).width : ℤ) =
        ((cursorAt (spanStream nums) t + k * (encodeSpan sv).width : ℕ) : ℤ) := by
      push_cast
      rw [hkz]
      ring
    rw [heq, Int.toNat_natCast]
  have hres : (encode nums).Residuals >>>
      (cursorAt (spanStream nums) t + k * (encodeSpan sv).width) &&&
      (2 ^ (encodeSpan sv).width - 1) = (encodeSpan sv).residuals.getD k 0 := by
    have hx := packStream_extract (spanStream nums) (spanStream_bound nums hr) t htlt
      k (by rw [hstg]; exact hklt)
    rw [hstg] at hx
    exact hx
  have hval : nums.getD i 0 < 2 ^ 32 :=
    hr _ (by rw [List.getD_eq_getElem _ _ hi]; exact List.getElem_mem _)
  have hPoly : (encode nums).Polynomials = (spanStream nums).flatMap fun x =>
      [(encodeSpan x.1).poly.1, (encodeSpan x.1).poly.2.1,
        (encodeSpan x.1).poly.2.2] := rfl
  -- assemble
  simp only [SlimArray.get]
  rw [← hseg, ← hloc]
  rw [hbm, hpc, Nat.add_sub_cancel, ← htdef]
  rw [hPoly, hpoly.1, hpoly.2.1, hpoly.2.2, hstg, hcfg, hflb]
  rw [hkq, hposz, hres]
  rw [hrec.2, hsvk, hsv_get]
  rw [Int.emod_eq_of_lt (by positivity) (by exact_mod_cast hval)]
  exact Int.toNat_natCast _

/-- Witness for C1 at a concrete input. -/
theorem encode_get_exact_witness :
    (encode [0, 15, 33, 50]).get 2 = ([0, 15, 33, 50] : List Nat).getD 2 0 :=
  encode_get_exact [0, 15, 33, 50] (by decide) 2 (by decide)

end SlimVerify
